import Mathlib

/-!
Verification of the gglot locale-synchronisation CLI.

We shallow-embed the JSON value model and the operations of the
reconciliation engine (`flatten`, `getAtPath`, `setAtPath`, `deleteAtPath`,
`diffKeys`, the OpenAI translator adapter's `translateString` with its cache
and concurrency semaphore, and the `syncLanguage` orchestration loop), and
prove or refute the spec's claims about them.

JS values are modelled by `JValue`; JS `Map`s and plain objects by
association lists with JS insertion-order semantics.
-/

set_option maxHeartbeats 1000000

/-- JSON-like runtime values: the payload of a parsed locale file.
`obj` fields are kept in insertion order, as JS objects do. -/
inductive JValue where
  | str (s : String)
  | num (n : Int)
  | bool (b : Bool)
  | null
  | arr (elems : List JValue)
  | obj (fields : List (String × JValue))
deriving Repr

mutual

/-- Size of a value, only descending into objects (arrays are opaque
to the flatten traversal, mirroring the source). Used for termination. -/
def jsize : JValue → Nat
  | .obj fs => 1 + jsizeF fs
  | _ => 1

/-- Total `jsize` of the values of a field list. -/
def jsizeF : List (String × JValue) → Nat
  | [] => 0
  | (_, v) :: rest => jsize v + jsizeF rest

end

/-- `isPlainObject` from the source: true exactly for plain objects
(JSON-parsed objects have `Object.prototype`; arrays and `null` do not
pass the source's check). -/
def isPlainObject : JValue → Bool
  | .obj _ => true
  | _ => false

/-- Lookup in a JS `Map` / object modelled as an association list:
first matching key. -/
def mapGet {α : Type} (m : List (String × α)) (k : String) : Option α :=
  match m with
  | [] => none
  | (k', v) :: rest => if k' = k then some v else mapGet rest k

/-- `Map.prototype.set`: overwrite in place if the key is present
(keeping its position), otherwise append. -/
def mapSet {α : Type} (m : List (String × α)) (k : String) (v : α) :
    List (String × α) :=
  match m with
  | [] => [(k, v)]
  | (k', v') :: rest =>
    if k' = k then (k', v) :: rest else (k', v') :: mapSet rest k v

/-- `Map.prototype.has`. -/
def mapHas {α : Type} (m : List (String × α)) (k : String) : Bool :=
  match m with
  | [] => false
  | (k', _) :: rest => k' = k || mapHas rest k

/-- The path-join step of `flatten`: `path ? path + "." + k : k`
(an empty string is falsy in JS). -/
def joinPath (path k : String) : String :=
  if path = "" then k else path ++ "." ++ k

theorem jsize_pos (v : JValue) : 0 < jsize v := by
  cases v <;> simp [jsize]

theorem jsizeF_eq_sum (fs : List (String × JValue)) :
    jsizeF fs = (fs.map (fun p => jsize p.2)).sum := by
  induction fs with
  | nil => simp [jsizeF]
  | cons a t ih => simp [jsizeF, ih]

/-- The loop of the source's `flatten`: an explicit stack of
`{value, path}` frames, popped LIFO (the head of the list is the top of
the JS array, i.e. pushing `Object.entries` appends them reversed). -/
def flattenLoop (out : List (String × JValue)) :
    List (String × JValue) → List (String × JValue)
  | [] => out
  | (path, v) :: rest =>
    match v with
    | .obj fs =>
      flattenLoop out (((fs.map (fun p => (joinPath path p.1, p.2))).reverse) ++ rest)
    | _ => flattenLoop (mapSet out path v) rest
termination_by stack => (stack.map (fun p => jsize p.2)).sum
decreasing_by
  · simp only [List.map_append, List.sum_append, List.map_reverse, List.sum_reverse,
      List.map_map, List.map_cons, List.sum_cons, Function.comp_def, jsize]
    have h := jsizeF_eq_sum fs
    omega
  · simp only [List.map_cons, List.sum_cons]
    exact Nat.lt_add_of_pos_left (jsize_pos _)

/-- `flatten(obj)` from the source (initial prefix `""`). -/
def flatten (t : JValue) : List (String × JValue) :=
  flattenLoop [] [("", t)]

/-- Character-level split on `'.'`, with JS `String.prototype.split(".")`
semantics: `"".split(".") = [""]`, separators at the ends produce empty
segments, and the result is never empty. -/
def splitChars : List Char → List (List Char)
  | [] => [[]]
  | c :: rest =>
    if c = '.' then [] :: splitChars rest
    else
      match splitChars rest with
      | s :: ss => (c :: s) :: ss
      | [] => [[c]]

/-- `dot.split(".")` from the source. -/
def splitDot (s : String) : List String :=
  (splitChars s.data).map (fun cs => String.mk cs)

/-- Truthy values of `typeof === "object"`: plain objects and arrays
(`null` is of object type but falsy, so the source's guards reject it). -/
def objLike : JValue → Bool
  | .obj _ => true
  | .arr _ => true
  | _ => false

/-- Digits of a decimal numeral to a `Nat`. -/
def digitsToNat (cs : List Char) : Nat :=
  cs.foldl (fun n c => 10 * n + (c.toNat - '0'.toNat)) 0

/-- Does a string denote a canonical array index (`"0"`, `"1"`, ..., no
leading zeros)? JS array indexing `arr[s]` hits an element exactly for such
keys; other string keys on a JSON-parsed array resolve to no own element. -/
def canonIndex (s : String) : Option Nat :=
  match s.data with
  | [] => none
  | c :: rest =>
    if c.isDigit && (rest.isEmpty || c != '0') && rest.all (fun d => d.isDigit) then
      some (digitsToNat (c :: rest))
    else none

/-- JS property read `cur[part]` for the values of our model.  For plain
objects this is key lookup; for arrays, canonical-index access (the
`length` and prototype properties fall outside the JSON value model and
no claim exercises them); reads on scalars are unreachable behind the
source's `typeof` guards. -/
def propGet : JValue → String → Option JValue
  | .obj fs, k => mapGet fs k
  | .arr xs, k =>
    match canonIndex k with
    | some i => xs.get? i
    | none => none
  | _, _ => none

/-- JS property write `cur[k] = v`.  Objects update an existing key in
place or append a new one (insertion order).  Arrays: an in-range
canonical index replaces the element; an out-of-range one extends the
array, the skipped slots being holes that serialise as `null`; a
non-index key would create an expando property that JSON serialisation
never sees, modelled as a no-op.  A write on a scalar would throw in
strict-mode JS and is unreachable for object-rooted trees. -/
def propSet : JValue → String → JValue → JValue
  | .obj fs, k, v => .obj (mapSet fs k v)
  | .arr xs, k, v =>
    match canonIndex k with
    | some i =>
      if i < xs.length then .arr (xs.set i v)
      else .arr (xs ++ List.replicate (i - xs.length) .null ++ [v])
    | none => .arr xs
  | w, _, _ => w

/-- `getAtPath`'s loop: `cur` may be `undefined` (`none`); each iteration
returns `undefined` unless `cur` is truthy and of object type. -/
def getWalk : Option JValue → List String → Option JValue
  | cur, [] => cur
  | some v, p :: ps => if objLike v then getWalk (propGet v p) ps else none
  | none, _ :: _ => none

/-- `getAtPath(obj, dot)` from the source. -/
def getAtPath (t : JValue) (dot : String) : Option JValue :=
  getWalk (some t) (splitDot dot)

/-- `setAtPath`'s loop over the split segments (the split list is never
empty; the `[]` equation is unreachable).  A falsy or non-object
intermediate (`!cur[key] || typeof cur[key] !== "object"`) is replaced by
a fresh empty object before descending; objects and arrays are descended
into. -/
def setSegs : JValue → List String → JValue → JValue
  | cur, [last], v => propSet cur last v
  | cur, k :: rest, v =>
    let child' :=
      match propGet cur k with
      | some c => if objLike c then c else .obj []
      | none => .obj []
    propSet cur k (setSegs child' rest v)
  | cur, [], _ => cur

/-- `setAtPath(obj, dot, value)` from the source. -/
def setAtPath (t : JValue) (dot : String) (v : JValue) : JValue :=
  setSegs t (splitDot dot) v

/-- JS `delete cur[last]` on the final segment: objects drop the
property (keys are unique in JS objects; we erase the first occurrence);
for arrays an in-range canonical index leaves a hole, which serialises
as `null` (modelled as `null`); any other key is a no-op. -/
def eraseKey {α : Type} : List (String × α) → String → List (String × α)
  | [], _ => []
  | (k', v) :: rest, k => if k' = k then rest else (k', v) :: eraseKey rest k

/-- See `eraseKey`; the delete applied at the resolved parent. -/
def propDelete : JValue → String → JValue
  | .obj fs, k => .obj (eraseKey fs k)
  | .arr xs, k =>
    match canonIndex k with
    | some i => if i < xs.length then .arr (xs.set i .null) else .arr xs
    | none => .arr xs
  | w, _ => w

/-- `deleteAtPath`'s loop: walk the first `n-1` segments, bailing out
(no-op) whenever `cur` is not a truthy object; finally delete the last
segment if the parent is a truthy object. -/
def delSegs : JValue → List String → JValue
  | cur, [last] => if objLike cur then propDelete cur last else cur
  | cur, k :: rest =>
    if objLike cur then
      match propGet cur k with
      | some c => propSet cur k (delSegs c rest)
      | none => cur
    else cur
  | cur, [] => cur

/-- `deleteAtPath(obj, dot)` from the source. -/
def deleteAtPath (t : JValue) (dot : String) : JValue :=
  delSegs t (splitDot dot)

/-- The mismatch records pushed by `diffKeys`. -/
structure TypeMismatch where
  path : String
  baseType : String
  targetType : String
deriving Repr, DecidableEq

/-- JS `typeof` for our values (`null` and arrays are of object type). -/
def typeofStr : JValue → String
  | .str _ => "string"
  | .num _ => "number"
  | .bool _ => "boolean"
  | .null => "object"
  | .arr _ => "object"
  | .obj _ => "object"

/-- The shape computed at the diff site:
`Array.isArray(v) ? "array" : typeof v`. -/
def diffShape (v : JValue) : String :=
  match v with
  | .arr _ => "array"
  | _ => typeofStr v

/-- The result record of `diffKeys`. -/
structure DiffResult where
  missingInTarget : List String
  extraInTarget : List String
  typeMismatches : List TypeMismatch
deriving Repr, DecidableEq

/-- The mismatch record pushed, if any, for one flattened base entry `p`
by `diffKeys`'s first loop (the body of its `else` branch). -/
def mismatchAt (targetFlat : List (String × JValue)) (p : String × JValue) :
    Option TypeMismatch :=
  match mapGet targetFlat p.1 with
  | none => none
  | some tv =>
    if diffShape p.2 ≠ diffShape tv then
      some ⟨p.1, diffShape p.2, diffShape tv⟩
    else none

/-- `diffKeys(baseObj, targetObj)` from the source: one pass over the
flattened base pushes missing keys and type mismatches in order, one
pass over the flattened target pushes extra keys. -/
def diffKeys (baseObj targetObj : JValue) : DiffResult :=
  let baseFlat := flatten baseObj
  let targetFlat := flatten targetObj
  { missingInTarget := (baseFlat.filter (fun p => !mapHas targetFlat p.1)).map Prod.fst
  , extraInTarget := (targetFlat.filter (fun p => !mapHas baseFlat p.1)).map Prod.fst
  , typeMismatches := baseFlat.filterMap (mismatchAt targetFlat) }

/-- The key list (in insertion order) of a flat map. -/
def keysOf {α : Type} (m : List (String × α)) : List String :=
  m.map Prod.fst

theorem mapHas_iff_mem {α : Type} (m : List (String × α)) (k : String) :
    mapHas m k = true ↔ k ∈ keysOf m := by
  induction m with
  | nil => simp [mapHas, keysOf]
  | cons p rest ih =>
    cases p with
    | mk k' v =>
      simp only [mapHas, keysOf, List.map_cons, List.mem_cons, Bool.or_eq_true,
        decide_eq_true_eq, ih]
      tauto

theorem mapGet_isSome_iff_mem {α : Type} (m : List (String × α)) (k : String) :
    (mapGet m k).isSome = true ↔ k ∈ keysOf m := by
  induction m with
  | nil => simp [mapGet, keysOf]
  | cons p rest ih =>
    cases p with
    | mk k' v =>
      by_cases h : k' = k
      · simp [mapGet, keysOf, h, ih]
      · simp only [mapGet, if_neg h, keysOf, List.map_cons, List.mem_cons, ih]
        simp [keysOf, Ne.symm h]

theorem mapGet_mem {α : Type} (m : List (String × α)) (k : String) (v : α)
    (h : mapGet m k = some v) : (k, v) ∈ m := by
  induction m with
  | nil => simp [mapGet] at h
  | cons p rest ih =>
    cases p with
    | mk k' v' =>
      by_cases hk : k' = k
      · subst hk
        simp only [mapGet, if_true, eq_self_iff_true, ite_true, Option.some.injEq] at h
        subst h
        exact List.mem_cons_self _ _
      · simp only [mapGet, if_neg hk] at h
        exact List.mem_cons_of_mem _ (ih h)

theorem mem_mapGet_of_nodup {α : Type} (m : List (String × α)) (k : String) (v : α)
    (hn : (keysOf m).Nodup) (h : (k, v) ∈ m) : mapGet m k = some v := by
  induction m with
  | nil => simp at h
  | cons p rest ih =>
    cases p with
    | mk k' v' =>
      simp only [keysOf, List.map_cons, List.nodup_cons] at hn
      rcases List.mem_cons.mp h with h1 | h1
      · cases h1
        simp [mapGet]
      · have hk : k' ≠ k := by
          rintro rfl
          exact hn.1 (List.mem_map.mpr ⟨(k', v), h1, rfl⟩)
        simp only [mapGet, if_neg hk]
        exact ih hn.2 h1

theorem keysOf_mapSet {α : Type} (m : List (String × α)) (k : String) (v : α) :
    keysOf (mapSet m k v) = if k ∈ keysOf m then keysOf m else keysOf m ++ [k] := by
  induction m with
  | nil => simp [mapSet, keysOf]
  | cons p rest ih =>
    cases p with
    | mk k' v' =>
      by_cases h : k' = k
      · subst h
        simp [mapSet, keysOf]
      · simp only [mapSet, if_neg h, keysOf, List.map_cons] at *
        by_cases hm : k ∈ keysOf rest
        · simp only [keysOf] at hm
          simp [hm, ih, Ne.symm h]
        · simp only [keysOf] at hm
          simp [hm, ih, Ne.symm h]

theorem nodup_keysOf_mapSet {α : Type} (m : List (String × α)) (k : String) (v : α)
    (hn : (keysOf m).Nodup) : (keysOf (mapSet m k v)).Nodup := by
  rw [keysOf_mapSet]
  by_cases h : k ∈ keysOf m
  · simpa [h] using hn
  · simp only [h, if_false]
    simpa [List.nodup_append, h] using hn

theorem flattenLoop_keys_nodup (out stack : List (String × JValue))
    (hn : (keysOf out).Nodup) : (keysOf (flattenLoop out stack)).Nodup := by
  induction out, stack using flattenLoop.induct with
  | case1 out => simpa [flattenLoop] using hn
  | case2 out path rest fs ih =>
    rw [flattenLoop]
    exact ih hn
  | case3 out path v rest hv ih =>
    rw [flattenLoop]
    · exact ih (nodup_keysOf_mapSet _ _ _ hn)
    · exact hv

theorem flatten_keys_nodup (t : JValue) : (keysOf (flatten t)).Nodup :=
  flattenLoop_keys_nodup [] [("", t)] (by simp [keysOf])

theorem mapHas_eq_false_iff {α : Type} (m : List (String × α)) (k : String) :
    mapHas m k = false ↔ k ∉ keysOf m := by
  rw [← mapHas_iff_mem]
  cases mapHas m k <;> simp

theorem mismatchAt_path (tf : List (String × JValue)) (p : String × JValue)
    (m : TypeMismatch) (h : mismatchAt tf p = some m) : m.path = p.1 := by
  unfold mismatchAt at h
  split at h
  · exact absurd h (by simp)
  · split at h
    · cases h
      rfl
    · exact absurd h (by simp)

theorem count_mismatch_paths_zero (tf : List (String × JValue))
    (l : List (String × JValue)) (k : String) (hk : k ∉ keysOf l) :
    ((l.filterMap (mismatchAt tf)).map TypeMismatch.path).count k = 0 := by
  rw [List.count_eq_zero]
  intro hmem
  rcases List.mem_map.mp hmem with ⟨m, hm, hpath⟩
  rcases List.mem_filterMap.mp hm with ⟨p, hp, hemit⟩
  exact hk (List.mem_map.mpr ⟨p, hp, by rw [← mismatchAt_path tf p m hemit, hpath]⟩)

theorem count_mismatch_paths_one (tf : List (String × JValue))
    (l : List (String × JValue)) (k : String) (v tv : JValue)
    (hn : (keysOf l).Nodup) (hb : mapGet l k = some v)
    (ht : mapGet tf k = some tv) (hs : diffShape v ≠ diffShape tv) :
    ((l.filterMap (mismatchAt tf)).map TypeMismatch.path).count k = 1 := by
  induction l with
  | nil => simp [mapGet] at hb
  | cons p rest ih =>
    cases p with
    | mk k' v' =>
      simp only [keysOf, List.map_cons, List.nodup_cons] at hn
      by_cases hk : k' = k
      · subst hk
        have hvv : v = v' := by
          have h2 := hb
          simp only [mapGet, if_true, eq_self_iff_true, ite_true, Option.some.injEq] at h2
          exact h2.symm
        subst hvv
        have hemit : mismatchAt tf (k', v) = some ⟨k', diffShape v, diffShape tv⟩ := by
          simp [mismatchAt, ht, hs]
        rw [List.filterMap_cons_some hemit, List.map_cons]
        have h0 := count_mismatch_paths_zero tf rest k' hn.1
        simp [List.count_cons, h0]
      · simp only [mapGet, if_neg hk] at hb
        have hrest := ih hn.2 hb
        cases hemit : mismatchAt tf (k', v') with
        | none =>
          rw [List.filterMap_cons_none hemit]
          exact hrest
        | some m =>
          rw [List.filterMap_cons_some hemit, List.map_cons]
          have hne : m.path ≠ k := by
            rw [mismatchAt_path tf _ m hemit]
            exact hk
          rw [List.count_cons_of_ne (Ne.symm hne)]
          exact hrest

theorem mem_filter_keys (l tf : List (String × JValue)) (k : String) :
    k ∈ (l.filter (fun p => !mapHas tf p.1)).map Prod.fst ↔
      k ∈ keysOf l ∧ k ∉ keysOf tf := by
  simp only [List.mem_map, List.mem_filter, Bool.not_eq_true']
  constructor
  · rintro ⟨p, ⟨hp, hhas⟩, rfl⟩
    exact ⟨List.mem_map.mpr ⟨p, hp, rfl⟩, (mapHas_eq_false_iff tf p.1).mp hhas⟩
  · rintro ⟨hmem, hnot⟩
    rcases List.mem_map.mp hmem with ⟨p, hp, rfl⟩
    exact ⟨p, ⟨hp, (mapHas_eq_false_iff tf p.1).mpr hnot⟩, rfl⟩

/-- C5: `diffKeys(B, T).missingInTarget` is exactly the set of flattened
paths of `B` absent from those of `T`, `extraInTarget` is the reverse
difference, and a path carried by both flat maps with differing shapes
appears exactly once in `typeMismatches` and in neither of the other two
result lists. -/
theorem claim_C5 (B T : JValue) (k : String) :
    (k ∈ (diffKeys B T).missingInTarget ↔
      k ∈ keysOf (flatten B) ∧ k ∉ keysOf (flatten T)) ∧
    (k ∈ (diffKeys B T).extraInTarget ↔
      k ∈ keysOf (flatten T) ∧ k ∉ keysOf (flatten B)) ∧
    (∀ v tv, mapGet (flatten B) k = some v → mapGet (flatten T) k = some tv →
      diffShape v ≠ diffShape tv →
      ((diffKeys B T).typeMismatches.map TypeMismatch.path).count k = 1 ∧
        k ∉ (diffKeys B T).missingInTarget ∧
        k ∉ (diffKeys B T).extraInTarget) := by
  refine ⟨mem_filter_keys _ _ _, mem_filter_keys _ _ _, ?_⟩
  intro v tv hb ht hs
  have hkB : k ∈ keysOf (flatten B) := by
    rw [← mapGet_isSome_iff_mem, hb]
    rfl
  have hkT : k ∈ keysOf (flatten T) := by
    rw [← mapGet_isSome_iff_mem, ht]
    rfl
  refine ⟨?_, ?_, ?_⟩
  · exact count_mismatch_paths_one (flatten T) (flatten B) k v tv
      (flatten_keys_nodup B) hb ht hs
  · simp only [diffKeys]
    rw [mem_filter_keys]
    rintro ⟨-, hno⟩
    exact hno hkT
  · simp only [diffKeys]
    rw [mem_filter_keys]
    rintro ⟨-, hno⟩
    exact hno hkB

/-- Witness for C5 at concrete trees: base `{"x":"1"}`, target `{"x":3}`
have a type mismatch at `"x"` recorded exactly once. -/
theorem claim_C5_witness :
    mapGet (flatten (JValue.obj [("x", .str "1")])) "x" = some (.str "1") ∧
    mapGet (flatten (JValue.obj [("x", .num 3)])) "x" = some (.num 3) ∧
    ((diffKeys (JValue.obj [("x", .str "1")])
        (JValue.obj [("x", .num 3)])).typeMismatches.map TypeMismatch.path).count "x" = 1 := by
  have hb : mapGet (flatten (JValue.obj [("x", .str "1")])) "x" = some (.str "1") := by
    simp [flatten, flattenLoop, joinPath, mapSet, mapGet]
  have ht : mapGet (flatten (JValue.obj [("x", .num 3)])) "x" = some (.num 3) := by
    simp [flatten, flattenLoop, joinPath, mapSet, mapGet]
  refine ⟨hb, ht, ?_⟩
  exact ((claim_C5 (JValue.obj [("x", .str "1")]) (JValue.obj [("x", .num 3)]) "x").2.2
    (.str "1") (.num 3) hb ht (by simp [diffShape, typeofStr])).1

theorem mapGet_mapSet_self {α : Type} (m : List (String × α)) (k : String) (v : α) :
    mapGet (mapSet m k v) k = some v := by
  induction m with
  | nil => simp [mapSet, mapGet]
  | cons p rest ih =>
    cases p with
    | mk k' v' =>
      by_cases h : k' = k
      · subst h
        simp [mapSet, mapGet]
      · simp [mapSet, mapGet, h, ih]

theorem mapGet_mapSet_ne {α : Type} (m : List (String × α)) (k j : String) (v : α)
    (h : j ≠ k) : mapGet (mapSet m k v) j = mapGet m j := by
  have h' : k ≠ j := Ne.symm h
  induction m with
  | nil => simp [mapSet, mapGet, h']
  | cons p rest ih =>
    cases p with
    | mk k' v' =>
      by_cases hk : k' = k
      · subst hk
        simp [mapSet, mapGet, h']
      · simp [mapSet, mapGet, hk, ih]

theorem mapSet_self_of_mapGet {α : Type} (m : List (String × α)) (k : String) (v : α)
    (h : mapGet m k = some v) : mapSet m k v = m := by
  induction m with
  | nil => simp [mapGet] at h
  | cons p rest ih =>
    cases p with
    | mk k' v' =>
      by_cases hk : k' = k
      · subst hk
        simp only [mapGet, if_true, eq_self_iff_true, ite_true, Option.some.injEq] at h
        simp [mapSet, h]
      · simp only [mapGet, if_neg hk] at h
        simp [mapSet, hk, ih h]

theorem mapGet_eraseKey_self {α : Type} (m : List (String × α)) (k : String)
    (hn : (keysOf m).Nodup) : mapGet (eraseKey m k) k = none := by
  induction m with
  | nil => simp [eraseKey, mapGet]
  | cons p rest ih =>
    cases p with
    | mk k' v' =>
      simp only [keysOf, List.map_cons, List.nodup_cons] at hn
      by_cases hk : k' = k
      · subst hk
        simp only [eraseKey, if_true, eq_self_iff_true, ite_true]
        cases hres : mapGet rest k' with
        | none => rfl
        | some w => exact absurd (List.mem_map.mpr ⟨(k', w), mapGet_mem _ _ _ hres, rfl⟩) hn.1
      · simp [eraseKey, mapGet, hk, ih hn.2]

theorem mapGet_eraseKey_ne {α : Type} (m : List (String × α)) (k j : String) (h : j ≠ k) :
    mapGet (eraseKey m k) j = mapGet m j := by
  have h' : k ≠ j := Ne.symm h
  induction m with
  | nil => simp [eraseKey]
  | cons p rest ih =>
    cases p with
    | mk k' v' =>
      by_cases hk : k' = k
      · subst hk
        simp [eraseKey, mapGet, h']
      · simp [eraseKey, mapGet, hk, ih]

theorem eraseKey_of_mapGet_none {α : Type} (m : List (String × α)) (k : String)
    (h : mapGet m k = none) : eraseKey m k = m := by
  induction m with
  | nil => rfl
  | cons p rest ih =>
    cases p with
    | mk k' v' =>
      by_cases hk : k' = k
      · subst hk
        simp [mapGet] at h
      · simp only [mapGet, if_neg hk] at h
        simp [eraseKey, hk, ih h]

theorem getWalk_none (l : List String) : getWalk none l = none := by
  cases l <;> rfl

theorem getWalk_nil (cur : Option JValue) : getWalk cur [] = cur := by
  cases cur <;> rfl

theorem getWalk_append (cur : Option JValue) (p q : List String) :
    getWalk cur (p ++ q) = getWalk (getWalk cur p) q := by
  induction p generalizing cur with
  | nil => simp [getWalk_nil]
  | cons a ps ih =>
    cases cur with
    | none => simp [getWalk, getWalk_none]
    | some v =>
      by_cases h : objLike v = true
      · simp only [List.cons_append, getWalk, h, if_true, ite_true]
        exact ih _
      · simp only [List.cons_append, getWalk, h]
        simp only [Bool.not_eq_true] at h
        simp [h, getWalk_none]

theorem splitChars_ne_nil (cs : List Char) : splitChars cs ≠ [] := by
  cases cs with
  | nil => simp [splitChars]
  | cons c rest =>
    by_cases h : c = '.'
    · simp [splitChars, h]
    · simp only [splitChars, if_neg h]
      cases hs : splitChars rest <;> simp

theorem splitDot_ne_nil (s : String) : splitDot s ≠ [] := by
  simpa [splitDot] using splitChars_ne_nil s.data

mutual

/-- Trees containing no array anywhere.  `setAtPath`/`getAtPath` descend
into arrays by canonical index (and JS would even attach expando
properties for other keys), so the clean create-or-overwrite reading of
the spec holds on array-free trees. -/
def arrayFree : JValue → Bool
  | .arr _ => false
  | .obj fs => arrayFreeF fs
  | _ => true

/-- `arrayFree` over a field list. -/
def arrayFreeF : List (String × JValue) → Bool
  | [] => true
  | (_, v) :: rest => arrayFree v && arrayFreeF rest

end

theorem arrayFree_mapGet (fs : List (String × JValue)) (k : String) (c : JValue)
    (hf : arrayFreeF fs = true) (hg : mapGet fs k = some c) : arrayFree c = true := by
  induction fs with
  | nil => simp [mapGet] at hg
  | cons p rest ih =>
    cases p with
    | mk k' v' =>
      simp only [arrayFreeF, Bool.and_eq_true] at hf
      by_cases hk : k' = k
      · subst hk
        simp only [mapGet, if_true, eq_self_iff_true, ite_true, Option.some.injEq] at hg
        subst hg
        exact hf.1
      · simp only [mapGet, if_neg hk] at hg
        exact ih hf.2 hg

theorem obj_of_arrayFree_objLike (t : JValue) (h1 : arrayFree t = true)
    (h2 : objLike t = true) : ∃ fs, t = .obj fs ∧ arrayFreeF fs = true := by
  cases t <;> simp_all [arrayFree, objLike]

theorem getWalk_setSegs (segs : List String) (t v : JValue) (hne : segs ≠ [])
    (haf : arrayFree t = true) (hol : objLike t = true) :
    getWalk (some (setSegs t segs v)) segs = some v := by
  induction segs generalizing t with
  | nil => exact absurd rfl hne
  | cons a rest ih =>
    obtain ⟨fs, rfl, hfs⟩ := obj_of_arrayFree_objLike t haf hol
    cases rest with
    | nil =>
      simp [setSegs, propSet, getWalk, objLike, propGet, mapGet_mapSet_self, getWalk_nil]
    | cons b rest2 =>
      have hstep : ∀ u : JValue,
          getWalk (some (JValue.obj (mapSet fs a u))) (a :: b :: rest2)
            = getWalk (some u) (b :: rest2) := by
        intro u
        simp [getWalk, objLike, propGet, mapGet_mapSet_self]
      simp only [setSegs]
      cases hpg : propGet (JValue.obj fs) a with
      | none =>
        simp only [propSet]
        rw [hstep]
        exact ih _ (by simp) (by simp [arrayFree, arrayFreeF]) (by simp [objLike])
      | some c =>
        by_cases hoc : objLike c = true
        · simp only [if_pos hoc, propSet]
          rw [hstep]
          refine ih c (by simp) ?_ hoc
          exact arrayFree_mapGet fs a c hfs (by simpa [propGet] using hpg)
        · simp only [if_neg hoc, propSet]
          rw [hstep]
          exact ih _ (by simp) (by simp [arrayFree, arrayFreeF]) (by simp [objLike])

/-- C7 counterexample: with an array intermediate, `setAtPath` does NOT
overwrite it with a fresh object — it descends into the array.  Setting
`"a.0"` in `{"a":["x"]}` yields `{"a":["v"]}`, not `{"a":{"0":"v"}}` as
the claim ("any non-object value (including an array) is overwritten
with a fresh object") would require. -/
theorem claim_C7_counterexample :
    setAtPath (.obj [("a", .arr [.str "x"])]) "a.0" (.str "v")
      = .obj [("a", .arr [.str "v"])] ∧
    setAtPath (.obj [("a", .arr [.str "x"])]) "a.0" (.str "v")
      ≠ .obj [("a", .obj [("0", .str "v")])] := by
  constructor
  · rfl
  · intro h
    rw [show setAtPath (.obj [("a", .arr [.str "x"])]) "a.0" (.str "v")
        = JValue.obj [("a", .arr [.str "v"])] from rfl] at h
    simp at h

/-- C7 (amended): on array-free object-rooted trees `setAtPath` creates
missing intermediates and overwrites scalar/null intermediates with
fresh objects, so that the written value is readable back at the same
path; when the next intermediate is absent or a non-object scalar it is
replaced by a fresh empty object before descending; an array
intermediate, however, is descended into rather than overwritten. -/
theorem claim_C7 :
    (∀ (t : JValue) (path : String) (v : JValue),
        arrayFree t = true → isPlainObject t = true →
        getAtPath (setAtPath t path v) path = some v) ∧
    (∀ (fs : List (String × JValue)) (k : String) (rest : List String) (v : JValue),
        rest ≠ [] →
        (propGet (.obj fs) k = none ∨
          ∃ c, propGet (.obj fs) k = some c ∧ objLike c = false) →
        setSegs (.obj fs) (k :: rest) v
          = .obj (mapSet fs k (setSegs (.obj []) rest v))) ∧
    (∀ (fs : List (String × JValue)) (k : String) (rest : List String)
        (v : JValue) (xs : List JValue),
        rest ≠ [] →
        propGet (.obj fs) k = some (.arr xs) →
        setSegs (.obj fs) (k :: rest) v
          = .obj (mapSet fs k (setSegs (.arr xs) rest v))) := by
  refine ⟨?_, ?_, ?_⟩
  · intro t path v haf hobj
    have hol : objLike t = true := by
      cases t <;> simp_all [isPlainObject, objLike]
    exact getWalk_setSegs (splitDot path) t v (splitDot_ne_nil path) haf hol
  · intro fs k rest v hne hyp
    cases rest with
    | nil => exact absurd rfl hne
    | cons b rest2 =>
      simp only [setSegs]
      rcases hyp with hnone | ⟨c, hsome, hc⟩
      · rw [hnone]
        rfl
      · simp only [hsome]
        rw [if_neg (by simp [hc])]
        rfl
  · intro fs k rest v xs hne hget
    cases rest with
    | nil => exact absurd rfl hne
    | cons b rest2 =>
      simp only [setSegs, hget]
      rw [if_pos (by simp [objLike])]
      rfl

/-- Witness for C7 at a concrete input: writing `"q.r"` into `{"q":"s"}`
overwrites the scalar intermediate and the value reads back. -/
theorem claim_C7_witness :
    getAtPath (setAtPath (.obj [("q", .str "s")]) "q.r" (.num 2)) "q.r"
      = some (.num 2) :=
  claim_C7.1 (.obj [("q", .str "s")]) "q.r" (.num 2) rfl rfl

/-- Does the `deleteAtPath`/`getAtPath` walk pass only through plain
objects, each segment resolving?  (The spec's delete contract speaks of
removing a leaf from its parent *object*.) -/
def objWalk : JValue → List String → Bool
  | t, [] => isPlainObject t
  | t, a :: ps =>
    isPlainObject t &&
      (match propGet t a with
       | some c => objWalk c ps
       | none => false)

/-- Boolean segment-list prefix test (used to state delete's frame
condition). -/
def isSegPre : List String → List String → Bool
  | [], _ => true
  | _ :: _, [] => false
  | a :: ps, b :: qs => a = b && isSegPre ps qs

theorem list_set_self (xs : List JValue) (i : Nat) (c : JValue)
    (h : xs.get? i = some c) : xs.set i c = xs := by
  induction xs generalizing i with
  | nil => simp at h
  | cons x rest ih =>
    cases i with
    | zero =>
      simp only [List.get?, Option.some.injEq] at h
      simp [List.set, h]
    | succ n =>
      simp only [List.get?] at h
      simp [List.set, ih n h]

theorem propSet_propGet_self (cur : JValue) (k : String) (c : JValue)
    (h : propGet cur k = some c) : propSet cur k c = cur := by
  cases cur with
  | obj fs =>
    simp only [propGet] at h
    simp [propSet, mapSet_self_of_mapGet fs k c h]
  | arr xs =>
    simp only [propGet] at h
    cases hci : canonIndex k with
    | none => simp [propSet, hci]
    | some i =>
      rw [hci] at h
      have hlt : i < xs.length := by
        rcases List.get?_eq_some.mp h with ⟨hl, -⟩
        exact hl
      simp [propSet, hci, hlt, list_set_self xs i c h]
  | str s => simp [propGet] at h
  | num n => simp [propGet] at h
  | bool b => simp [propGet] at h
  | null => simp [propGet] at h

theorem propDelete_of_propGet_none (cur : JValue) (k : String)
    (h : propGet cur k = none) : propDelete cur k = cur := by
  cases cur with
  | obj fs =>
    simp only [propGet] at h
    simp [propDelete, eraseKey_of_mapGet_none fs k h]
  | arr xs =>
    simp only [propGet] at h
    cases hci : canonIndex k with
    | none => simp [propDelete, hci]
    | some i =>
      rw [hci] at h
      have hge : xs.length ≤ i := List.get?_eq_none.mp h
      simp [propDelete, hci, Nat.not_lt.mpr hge]
  | str s => rfl
  | num n => rfl
  | bool b => rfl
  | null => rfl

theorem delSegs_noop (segs : List String) (cur : JValue) (hne : segs ≠ [])
    (h : getWalk (some cur) segs = none) : delSegs cur segs = cur := by
  induction segs generalizing cur with
  | nil => exact absurd rfl hne
  | cons a rest ih =>
    cases rest with
    | nil =>
      by_cases hobj : objLike cur = true
      · simp only [getWalk, hobj, if_true, ite_true, getWalk_nil] at h
        simp only [delSegs, hobj, if_true, ite_true]
        exact propDelete_of_propGet_none cur a h
      · simp only [Bool.not_eq_true] at hobj
        simp [delSegs, hobj]
    | cons b rest2 =>
      by_cases hobj : objLike cur = true
      · simp only [getWalk, hobj, if_true, ite_true] at h
        simp only [delSegs, hobj, if_true, ite_true]
        cases hpg : propGet cur a with
        | none => rfl
        | some c =>
          rw [hpg] at h
          simp only []
          rw [ih c (by simp) h]
          exact propSet_propGet_self cur a c hpg
      · simp only [Bool.not_eq_true] at hobj
        simp [delSegs, hobj]

theorem delSegs_parent (p₁ : List String) (t : JValue)
    (fs : List (String × JValue)) (k : String)
    (hw : objWalk t p₁ = true) (hg : getWalk (some t) p₁ = some (.obj fs)) :
    getWalk (some (delSegs t (p₁ ++ [k]))) p₁ = some (.obj (eraseKey fs k)) ∧
    ∀ q, isSegPre q p₁ = false → isSegPre (p₁ ++ [k]) q = false →
      getWalk (some (delSegs t (p₁ ++ [k]))) q = getWalk (some t) q := by
  induction p₁ generalizing t with
  | nil =>
    have ht : t = .obj fs := by simpa [getWalk_nil] using hg
    subst ht
    have hdel : delSegs (JValue.obj fs) [k] = .obj (eraseKey fs k) := by
      simp [delSegs, objLike, propDelete]
    constructor
    · simpa [getWalk_nil] using congrArg some hdel
    · intro q hq1 hq2
      cases q with
      | nil => simp [isSegPre] at hq1
      | cons j q' =>
        have hjk : j ≠ k := by
          intro hh
          subst hh
          simp [isSegPre] at hq2
        show getWalk (some (delSegs (JValue.obj fs) [k])) (j :: q') = _
        rw [hdel]
        simp only [getWalk, objLike, if_true, ite_true, propGet]
        rw [mapGet_eraseKey_ne fs k j hjk]
  | cons a ps ih =>
    obtain ⟨gs, rfl⟩ : ∃ gs, t = .obj gs := by
      cases t <;> simp_all [objWalk, isPlainObject]
    simp only [objWalk, isPlainObject, Bool.true_and] at hw
    cases hpg : propGet (JValue.obj gs) a with
    | none =>
      rw [hpg] at hw
      simp at hw
    | some c =>
      rw [hpg] at hw
      simp only [] at hw
      have hgc : getWalk (some c) ps = some (.obj fs) := by
        have h2 := hg
        simp only [getWalk, objLike, if_true, ite_true, hpg] at h2
        exact h2
      obtain ⟨b, rest', hbr⟩ : ∃ b rest', ps ++ [k] = b :: rest' := by
        cases ps <;> exact ⟨_, _, rfl⟩
      have hdel : delSegs (JValue.obj gs) ((a :: ps) ++ [k])
          = propSet (JValue.obj gs) a (delSegs c (ps ++ [k])) := by
        show delSegs (JValue.obj gs) (a :: (ps ++ [k])) = _
        rw [hbr]
        simp only [delSegs, objLike, if_true, ite_true, hpg]
      obtain ⟨ih1, ih2⟩ := ih c hw hgc
      constructor
      · rw [hdel]
        simp only [propSet, getWalk, objLike, if_true, ite_true, propGet,
          mapGet_mapSet_self]
        exact ih1
      · intro q hq1 hq2
        cases q with
        | nil => simp [isSegPre] at hq1
        | cons j q' =>
          rw [hdel]
          simp only [propSet]
          by_cases hja : j = a
          · subst hja
            have hq1' : isSegPre q' ps = false := by simpa [isSegPre] using hq1
            have hq2' : isSegPre (ps ++ [k]) q' = false := by
              have h3 := hq2
              simp only [List.cons_append, isSegPre, eq_self_iff_true, true_and,
                Bool.true_and, decide_eq_true_eq, Bool.and_eq_false_iff] at h3
              rcases h3 with h3 | h3
              · simp at h3
              · exact h3
            have hpg2 : mapGet gs j = some c := by simpa [propGet] using hpg
            simp only [getWalk, objLike, if_true, ite_true, propGet,
              mapGet_mapSet_self, hpg2]
            exact ih2 q' hq1' hq2'
          · simp only [getWalk, objLike, if_true, ite_true, propGet]
            rw [mapGet_mapSet_ne gs a j _ hja]

/-- C9 counterexample: `getAtPath` does not return `undefined` when an
intermediate resolves to an array (a non-object shape in the diff's own
vocabulary) — it indexes into the array: in `{"a":["hi"]}` the
intermediate `"a"` is an array, yet `getAtPath` at `"a.0"` returns
`"hi"`, not `undefined`. -/
theorem claim_C9_counterexample :
    getAtPath (.obj [("a", .arr [.str "hi"])]) "a" = some (.arr [.str "hi"]) ∧
    diffShape (.arr [.str "hi"]) ≠ "object" ∧
    getAtPath (.obj [("a", .arr [.str "hi"])]) "a.0" = some (.str "hi") := by
  refine ⟨rfl, ?_, rfl⟩
  intro h
  simp [diffShape] at h

/-- C9 (amended): (i) `getAtPath` is total and returns `undefined`
whenever the walk reaches `undefined` or a scalar/`null` before the
segments run out (arrays, being of JS object type, are instead indexed
into); (ii) `deleteAtPath` is a no-op whenever `getAtPath` of the same
path is `undefined`; (iii) when the walk to the parent passes through
objects and reaches a parent object, deleting removes exactly the
addressed key from that parent: the parent (possibly now empty) stays in
place with only that key erased, the deleted path no longer resolves
(given unique keys), and every path that is neither an ancestor of the
parent nor an extension of the deleted path reads unchanged. -/
theorem claim_C9 :
    (∀ (t : JValue) (path : String) (p₁ p₂ : List String),
        splitDot path = p₁ ++ p₂ → p₂ ≠ [] →
        (getWalk (some t) p₁ = none ∨
          ∃ w, getWalk (some t) p₁ = some w ∧ objLike w = false) →
        getAtPath t path = none) ∧
    (∀ (t : JValue) (path : String),
        getAtPath t path = none → deleteAtPath t path = t) ∧
    (∀ (t : JValue) (p₁ : List String) (fs : List (String × JValue)) (k : String),
        objWalk t p₁ = true → getWalk (some t) p₁ = some (.obj fs) →
        getWalk (some (delSegs t (p₁ ++ [k]))) p₁ = some (.obj (eraseKey fs k)) ∧
        ((keysOf fs).Nodup →
          getWalk (some (delSegs t (p₁ ++ [k]))) (p₁ ++ [k]) = none) ∧
        ∀ q, isSegPre q p₁ = false → isSegPre (p₁ ++ [k]) q = false →
          getWalk (some (delSegs t (p₁ ++ [k]))) q = getWalk (some t) q) := by
  refine ⟨?_, ?_, ?_⟩
  · intro t path p₁ p₂ hsplit hne hyp
    unfold getAtPath
    rw [hsplit, getWalk_append]
    rcases hyp with h | ⟨w, hw, hwol⟩
    · rw [h, getWalk_none]
    · rw [hw]
      cases p₂ with
      | nil => exact absurd rfl hne
      | cons c cs => simp [getWalk, hwol]
  · intro t path h
    exact delSegs_noop (splitDot path) t (splitDot_ne_nil path) h
  · intro t p₁ fs k hw hg
    obtain ⟨h1, h2⟩ := delSegs_parent p₁ t fs k hw hg
    refine ⟨h1, ?_, h2⟩
    intro hn
    rw [getWalk_append, h1]
    simp [getWalk, objLike, propGet, mapGet_eraseKey_self fs k hn, getWalk_none]

/-- Witness for C9 at concrete inputs: an unresolvable path is a delete
no-op, and deleting `"a.b"` from `{"a":{"b":"x","c":"y"}}` leaves the
parent with only `"c"` and keeps the sibling readable. -/
theorem claim_C9_witness :
    deleteAtPath (.obj [("a", .str "x")]) "zz.q" = .obj [("a", .str "x")] ∧
    getWalk (some (delSegs (.obj [("a", .obj [("b", .str "x"), ("c", .str "y")])])
        (["a"] ++ ["b"]))) ["a"]
      = some (.obj [("c", .str "y")]) ∧
    getAtPath (.obj [("a", .arr [.str "w"])]) "a.1.z" = none := by
  refine ⟨?_, ?_, ?_⟩
  · exact claim_C9.2.1 _ "zz.q" rfl
  · exact (claim_C9.2.2 (.obj [("a", .obj [("b", .str "x"), ("c", .str "y")])])
      ["a"] [("b", .str "x"), ("c", .str "y")] "b" rfl rfl).1
  · exact claim_C9.1 (.obj [("a", .arr [.str "w"])]) "a.1.z" ["a", "1"] ["z"]
      rfl (by simp) (Or.inl rfl)

/-- Is `needle` an initial run of `hay`? (helper for the JS
`String.prototype.includes` model). -/
def startsWith : List Char → List Char → Bool
  | [], _ => true
  | _ :: _, [] => false
  | a :: ps, b :: bs => a = b && startsWith ps bs

/-- JS `hay.includes(needle)`, modelled on character lists. -/
def containsSub (needle hay : List Char) : Bool :=
  startsWith needle hay ||
    (match hay with
     | [] => false
     | _ :: rest => containsSub needle rest)

/-- The global scan of the source's placeholder regex `/\{[^{}]+\}/g`,
driven by a fuel argument for structural recursion (each step consumes at
least one character, so `fuel = length` in `phScan` below never runs
out): at each position a match is `{`, one or more non-brace characters,
then `}`; scanning resumes after a match, or at the next position on
failure. -/
def phScanF : Nat → List Char → List (List Char)
  | 0, _ => []
  | _, [] => []
  | fuel + 1, c :: rest =>
    if c = '{' then
      let run := rest.takeWhile (fun d => d ≠ '{' && d ≠ '}')
      match rest.drop run.length with
      | d :: tail =>
        if d = '}' then
          if run.isEmpty then phScanF fuel rest
          else ('{' :: (run ++ ['}'])) :: phScanF fuel tail
        else phScanF fuel rest
      | [] => phScanF fuel rest
    else phScanF fuel rest

/-- See `phScanF`. -/
def phScan (cs : List Char) : List (List Char) :=
  phScanF cs.length cs

/-- Modelled from the spec: the repository's `dedupe` helper is imported
from a helpers module whose source is not under `src/`; per the spec,
placeholder "duplicates [are] collapsed to a set".  We keep the first
occurrence of each element, preserving order. -/
def dedupeAux : List String → List String → List String
  | [], _ => []
  | x :: rest, seen =>
    if seen.contains x then dedupeAux rest seen
    else x :: dedupeAux rest (x :: seen)

/-- See `dedupeAux`. -/
def dedupe (l : List String) : List String :=
  dedupeAux l []

/-- `placeholders(s)` from the source: the regex matches, deduplicated. -/
def placeholders (s : String) : List String :=
  dedupe ((phScan s.data).map (fun cs => String.mk cs))

/-- JS `String.prototype.trim`, on character lists. -/
def trimChars (cs : List Char) : List Char :=
  ((cs.dropWhile Char.isWhitespace).reverse.dropWhile Char.isWhitespace).reverse

/-- `.trim()` applied to the extracted completion content. -/
def jsTrim (s : String) : String :=
  String.mk (trimChars s.data)

/-- `key(text, fromLang, toLang)` from the source:
`` `${fromLang}→${toLang}::${text}` ``. -/
def key (text fromLang toLang : String) : String :=
  fromLang ++ "→" ++ toLang ++ "::" ++ text

/-- The mutable state of `OpenAITranslator` visible to sequential
`translateString` calls: the cache `Map`, the number of remote
completion calls issued so far (used to index the response oracle), and
the warnings logged so far (recorded as their lists of lost
placeholders). -/
structure TState where
  cache : List (String × String)
  ncalls : Nat
  twarns : List (List String)
deriving Repr, DecidableEq

/-- An oracle giving the `message.content` of the n-th remote completion
call of the run (the orchestrator awaits calls one at a time, so the
sequential model is the faithful projection of the adapter's behaviour;
remote failures are treated separately in the concurrency model). -/
def Oracle : Type := Nat → String

/-- `translateString(text, fromLang, toLang)` from the source, in the
sequential setting.  A cached value is returned only if truthy (`if
(cached)`): the empty string is treated as a miss.  On a miss the remote
call is issued, its trimmed content checked for every placeholder of
`text`; if any is lost, a warning is logged and the original text is
cached and returned, otherwise the output is cached and returned.  (The
non-string input guard is outside this model: the orchestrator only ever
passes string leaves.) -/
def translateString (oracle : Oracle) (st : TState)
    (text fromLang toLang : String) : String × TState :=
  let k := key text fromLang toLang
  let out := jsTrim (oracle st.ncalls)
  let lost := (placeholders text).filter (fun ph => !containsSub ph.data out.data)
  let missResult :=
    if lost.isEmpty then
      (out, ⟨mapSet st.cache k out, st.ncalls + 1, st.twarns⟩)
    else
      (text, ⟨mapSet st.cache k text, st.ncalls + 1, lost :: st.twarns⟩)
  match mapGet st.cache k with
  | some cached => if cached = "" then missResult else (cached, st)
  | none => missResult

/-- C2 counterexample: the cache hit test is `if (cached)`, so a cached
*empty* translation is treated as a miss.  With a remote service
returning `""` for the placeholder-free text `"hi"`, two sequential
`translateString("hi","en","fr")` requests issue two remote calls. -/
theorem claim_C2_counterexample :
    (translateString (fun _ => "") ⟨[], 0, []⟩ "hi" "en" "fr").2.ncalls = 1 ∧
    (translateString (fun _ => "")
        (translateString (fun _ => "") ⟨[], 0, []⟩ "hi" "en" "fr").2
        "hi" "en" "fr").2.ncalls = 2 :=
  ⟨rfl, rfl⟩

/-- C2 (amended): if the first request's result is non-empty (which is
the value it caches), a second request for the same
`(text, fromLocale, toLocale)` returns that cached value and leaves the
adapter state — in particular the remote-call count — unchanged, so the
remote call is issued at most once for the triple; an empty result,
being falsy, is re-fetched. -/
theorem translateString_hit (oracle : Oracle) (st : TState)
    (text fromLang toLang : String) (c : String)
    (hget : mapGet st.cache (key text fromLang toLang) = some c) (hc : c ≠ "") :
    translateString oracle st text fromLang toLang = (c, st) := by
  simp only [translateString, hget]
  rw [if_neg hc]

theorem translateString_caches_result (oracle : Oracle) (st : TState)
    (text fromLang toLang : String) :
    mapGet (translateString oracle st text fromLang toLang).2.cache
        (key text fromLang toLang)
      = some (translateString oracle st text fromLang toLang).1 := by
  cases hget : mapGet st.cache (key text fromLang toLang) with
  | some cached =>
    simp only [translateString, hget]
    by_cases hc : cached = ""
    · rw [if_pos hc]
      by_cases hl : ((placeholders text).filter
          (fun ph => !containsSub ph.data (jsTrim (oracle st.ncalls)).data)).isEmpty
      · simp only [hl, if_true, ite_true]
        exact mapGet_mapSet_self _ _ _
      · simp only [hl, Bool.false_eq_true, if_false, ite_false]
        exact mapGet_mapSet_self _ _ _
    · rw [if_neg hc]
      exact hget
  | none =>
    simp only [translateString, hget]
    by_cases hl : ((placeholders text).filter
        (fun ph => !containsSub ph.data (jsTrim (oracle st.ncalls)).data)).isEmpty
    · simp only [hl, if_true, ite_true]
      exact mapGet_mapSet_self _ _ _
    · simp only [hl, Bool.false_eq_true, if_false, ite_false]
      exact mapGet_mapSet_self _ _ _

theorem claim_C2 (oracle : Oracle) (st : TState) (text fromLang toLang : String)
    (hne : (translateString oracle st text fromLang toLang).1 ≠ "") :
    translateString oracle
        (translateString oracle st text fromLang toLang).2 text fromLang toLang
      = ((translateString oracle st text fromLang toLang).1,
         (translateString oracle st text fromLang toLang).2) :=
  translateString_hit oracle _ text fromLang toLang _
    (translateString_caches_result oracle st text fromLang toLang) hne

/-- Witness for C2 at a concrete input: the remote returns `"Bonjour"`,
so the second request is served from the cache unchanged. -/
theorem claim_C2_witness :
    translateString (fun _ => "Bonjour")
        (translateString (fun _ => "Bonjour") ⟨[], 0, []⟩ "hi" "en" "fr").2
        "hi" "en" "fr"
      = ("Bonjour",
         (translateString (fun _ => "Bonjour") ⟨[], 0, []⟩ "hi" "en" "fr").2) := by
  have h := claim_C2 (fun _ => "Bonjour") ⟨[], 0, []⟩ "hi" "en" "fr" (by
    intro h
    exact absurd (show ("Bonjour" : String) = "" from h) (by decide))
  rw [h]
  rfl

/-- C3: on a cache miss, if the (trimmed) remote response omits any
placeholder of the source text as a substring, `translateString` returns
the source text unchanged and logs a warning naming exactly the lost
placeholders; otherwise it returns the response. -/
theorem claim_C3 (oracle : Oracle) (st : TState) (text fromLang toLang : String)
    (hmiss : mapGet st.cache (key text fromLang toLang) = none) :
    ((∃ ph ∈ placeholders text,
        containsSub ph.data (jsTrim (oracle st.ncalls)).data = false) →
      (translateString oracle st text fromLang toLang).1 = text ∧
      (translateString oracle st text fromLang toLang).2.twarns
        = ((placeholders text).filter
            (fun ph => !containsSub ph.data (jsTrim (oracle st.ncalls)).data))
          :: st.twarns) ∧
    ((∀ ph ∈ placeholders text,
        containsSub ph.data (jsTrim (oracle st.ncalls)).data = true) →
      (translateString oracle st text fromLang toLang).1
        = jsTrim (oracle st.ncalls)) := by
  simp only [translateString, hmiss]
  constructor
  · rintro ⟨ph, hmem, hlost⟩
    have hmemf : ph ∈ (placeholders text).filter
        (fun ph => !containsSub ph.data (jsTrim (oracle st.ncalls)).data) :=
      List.mem_filter.mpr ⟨hmem, by simp [hlost]⟩
    have hne : ((placeholders text).filter
        (fun ph => !containsSub ph.data (jsTrim (oracle st.ncalls)).data)).isEmpty
        = false := by
      cases hl : ((placeholders text).filter
          (fun ph => !containsSub ph.data (jsTrim (oracle st.ncalls)).data)).isEmpty
      · rfl
      · rw [List.isEmpty_iff] at hl
        rw [hl] at hmemf
        exact absurd hmemf (List.not_mem_nil ph)
    simp only [hne, Bool.false_eq_true, if_false, ite_false]
    exact ⟨trivial, trivial⟩
  · intro hall
    have hl : (placeholders text).filter
        (fun ph => !containsSub ph.data (jsTrim (oracle st.ncalls)).data) = [] := by
      rw [List.filter_eq_nil_iff]
      intro ph hmem
      simp [hall ph hmem]
    simp only [hl, List.isEmpty_nil, if_true, ite_true]

/-- Witness for C3 at concrete inputs: source `"Hello {name}"`, remote
returns `"Bonjour"`, so the result falls back to the source text and the
lost placeholder is logged; with the placeholder preserved the response
is returned. -/
theorem claim_C3_witness :
    (translateString (fun _ => "Bonjour") ⟨[], 0, []⟩ "Hello {name}" "en" "fr").1
      = "Hello {name}" ∧
    (translateString (fun _ => "Bonjour {name}") ⟨[], 0, []⟩ "Hello {name}" "en" "fr").1
      = "Bonjour {name}" := by
  constructor
  · exact ((claim_C3 (fun _ => "Bonjour") ⟨[], 0, []⟩ "Hello {name}" "en" "fr" rfl).1
      ⟨"{name}", by decide, rfl⟩).1
  · exact (claim_C3 (fun _ => "Bonjour {name}") ⟨[], 0, []⟩ "Hello {name}" "en" "fr" rfl).2
      (by decide)

/-- The semaphore-relevant state of the adapter: `running` and the FIFO
`queue` mirror the fields of `OpenAITranslator`; `holding` lists the
calls currently inside the `try` block (holding a concurrency token) and
`done` the completed ones.  Call identities are natural numbers. -/
structure CState where
  running : Nat
  queue : List Nat
  holding : List Nat
  done : List Nat
deriving Repr, DecidableEq

/-- Events of one `translateString` call against the semaphore. -/
inductive CEvent where
  | hit (id : Nat)
  | acqFast (id : Nat)
  | acqWait (id : Nat)
  | finish (id : Nat) (ok : Bool)

/-- Interleaved small-step semantics of the adapter's `acquire`/`release`
around the remote call:
* `hit` — step 2 of the algorithm: a truthy cached value returns at once,
  touching no token;
* `acqFast` — `acquire()` with `running < concurrency`: increment
  `running` and enter the `try` block;
* `acqWait` — `acquire()` with `running ≥ concurrency`: append the
  resolver to `queue` and suspend;
* `finish` — the remote call settles (successfully, with the placeholder
  fallback, or by throwing: `ok` distinguishes only reporting, since
  `release()` sits in `finally` and runs on every exit path): per
  `release()`, `queue.shift()` either wakes the first waiter (which
  inherits the token, `running` unchanged) or decrements `running`. -/
inductive CStep (conc : Nat) : CState → CEvent → CState → Prop where
  | hit (id : Nat) (s : CState) : CStep conc s (.hit id) s
  | acqFast (id : Nat) (s : CState)
      (hfresh : id ∉ s.queue ∧ id ∉ s.holding)
      (hlt : s.running < conc) :
      CStep conc s (.acqFast id)
        ⟨s.running + 1, s.queue, s.holding ++ [id], s.done⟩
  | acqWait (id : Nat) (s : CState)
      (hfresh : id ∉ s.queue ∧ id ∉ s.holding)
      (hge : conc ≤ s.running) :
      CStep conc s (.acqWait id) ⟨s.running, s.queue ++ [id], s.holding, s.done⟩
  | finishWake (id w : Nat) (ok : Bool) (s : CState) (rest : List Nat)
      (hhold : id ∈ s.holding) (hq : s.queue = w :: rest) :
      CStep conc s (.finish id ok)
        ⟨s.running, rest, s.holding.erase id ++ [w], id :: s.done⟩
  | finishIdle (id : Nat) (ok : Bool) (s : CState)
      (hhold : id ∈ s.holding) (hq : s.queue = []) :
      CStep conc s (.finish id ok)
        ⟨s.running - 1, [], s.holding.erase id, id :: s.done⟩

/-- States reachable from the freshly constructed adapter. -/
inductive CReach (conc : Nat) : CState → Prop where
  | init : CReach conc ⟨0, [], [], []⟩
  | step {s : CState} {e : CEvent} {s' : CState} :
      CReach conc s → CStep conc s e s' → CReach conc s'

theorem creach_inv (conc : Nat) (s : CState) (hr : CReach conc s) :
    s.holding.length = s.running ∧ s.running ≤ conc ∧
      (s.queue ++ s.holding).Nodup := by
  induction hr with
  | init => simp
  | @step s1 e s2 hr hstep ih =>
    obtain ⟨ihlen, ihle, ihnd⟩ := ih
    cases hstep with
    | hit id => exact ⟨ihlen, ihle, ihnd⟩
    | acqFast id _ hfresh hlt =>
      refine ⟨by simp [ihlen], hlt, ?_⟩
      rw [List.nodup_append] at ihnd ⊢
      refine ⟨ihnd.1, ?_, ?_⟩
      · simp [List.nodup_append, ihnd.2.1, hfresh.2]
      · intro a ha hb
        rcases List.mem_append.mp hb with hb | hb
        · exact ihnd.2.2 ha hb
        · simp at hb
          subst hb
          exact hfresh.1 ha
    | acqWait id _ hfresh hge =>
      refine ⟨ihlen, ihle, ?_⟩
      rw [List.nodup_append] at ihnd ⊢
      refine ⟨?_, ihnd.2.1, ?_⟩
      · simp [List.nodup_append, ihnd.1, hfresh.1]
      · intro a ha hb
        rcases List.mem_append.mp ha with ha | ha
        · exact ihnd.2.2 ha hb
        · simp at ha
          subst ha
          exact hfresh.2 hb
    | finishWake id w ok _ rest hhold hq =>
      rw [hq] at ihnd
      rw [List.nodup_append] at ihnd
      obtain ⟨hndq, hndh, hdisj⟩ := ihnd
      have hwrest : w ∉ rest := by
        intro hmem
        exact (List.nodup_cons.mp hndq).1 hmem
      have hwh : w ∉ s1.holding := hdisj (List.mem_cons_self w rest)
      refine ⟨?_, ihle, ?_⟩
      · simp only [List.length_append, List.length_singleton,
          List.length_erase_of_mem hhold]
        have : 1 ≤ s1.holding.length := List.length_pos_of_mem hhold
        omega
      · rw [List.nodup_append]
        refine ⟨(List.nodup_cons.mp hndq).2, ?_, ?_⟩
        · rw [List.nodup_append]
          refine ⟨hndh.erase id, by simp, ?_⟩
          intro a ha hb
          simp at hb
          subst hb
          exact hwh (List.mem_of_mem_erase ha)
        · intro a ha hb
          rcases List.mem_append.mp hb with hb | hb
          · exact hdisj (by simp [hq, ha]) (List.mem_of_mem_erase hb)
          · simp at hb
            subst hb
            exact hwrest ha
    | finishIdle id ok _ hhold hq =>
      rw [hq] at ihnd
      simp only [List.nil_append] at ihnd
      refine ⟨?_, Nat.le_trans (Nat.sub_le _ _) ihle, ?_⟩
      · rw [List.length_erase_of_mem hhold, ihlen]
      · simp only [List.nil_append]
        exact ihnd.erase id

/-- C1: for every positive concurrency bound, in every reachable state
the number of calls simultaneously holding a token (i.e. with a remote
call outstanding) never exceeds the bound, and a call that finishes —
successfully, via the placeholder fallback, or by a thrown remote
failure — holds no token afterwards: `release()` runs on every exit
path. -/
theorem claim_C1 (conc : Nat) (_hpos : 1 ≤ conc) (s : CState)
    (hr : CReach conc s) :
    s.holding.length ≤ conc ∧
    (∀ (id : Nat) (ok : Bool) (s' : CState),
        CStep conc s (.finish id ok) s' → id ∉ s'.holding) := by
  obtain ⟨hlen, hle, hnd⟩ := creach_inv conc s hr
  constructor
  · omega
  · intro id ok s' hstep
    have hndh : s.holding.Nodup := (List.nodup_append.mp hnd).2.1
    cases hstep with
    | finishWake id w ok _ rest hhold hq =>
      intro hmem
      rcases List.mem_append.mp hmem with hmem | hmem
      · exact (List.Nodup.not_mem_erase hndh : id ∉ _) hmem
      · simp at hmem
        subst hmem
        exact (List.nodup_append.mp hnd).2.2 (by simp [hq]) hhold
    | finishIdle id ok _ hhold hq =>
      exact fun hmem => (List.Nodup.not_mem_erase hndh : id ∉ _) hmem

/-- Witness for C1: with bound 1, after one fast acquire the holder
count is 1 ≤ 1, and finishing that call releases its token. -/
theorem claim_C1_witness :
    (⟨1, [], [0], []⟩ : CState).holding.length ≤ 1 ∧
    (0 : Nat) ∉ (⟨0, [], [], [0]⟩ : CState).holding := by
  have hr : CReach 1 ⟨1, [], [0], []⟩ :=
    CReach.step CReach.init
      (CStep.acqFast 0 ⟨0, [], [], []⟩ ⟨by simp, by simp⟩ (by simp))
  have h := claim_C1 1 le_rfl _ hr
  exact ⟨h.1, h.2 0 true ⟨0, [], [], [0]⟩
    (CStep.finishIdle 0 true _ (by simp) rfl)⟩

mutual

/-- Full size of a value, descending into arrays and objects (for the
termination of structural comparison). -/
def fsize : JValue → Nat
  | .obj fs => 1 + fsizeF fs
  | .arr xs => 1 + fsizeL xs
  | _ => 1

/-- `fsize` over a field list. -/
def fsizeF : List (String × JValue) → Nat
  | [] => 0
  | (_, v) :: rest => fsize v + fsizeF rest

/-- `fsize` over an element list. -/
def fsizeL : List JValue → Nat
  | [] => 0
  | v :: rest => fsize v + fsizeL rest

end

mutual

/-- Syntactic (deep) equality of values. -/
def jbeq : JValue → JValue → Bool
  | .str a, .str b => a == b
  | .num a, .num b => a == b
  | .bool a, .bool b => a == b
  | .null, .null => true
  | .arr xs, .arr ys => jbeqL xs ys
  | .obj fs, .obj gs => jbeqF fs gs
  | _, _ => false

/-- `jbeq` over element lists. -/
def jbeqL : List JValue → List JValue → Bool
  | [], [] => true
  | x :: xs, y :: ys => jbeq x y && jbeqL xs ys
  | _, _ => false

/-- `jbeq` over field lists (keys and order included). -/
def jbeqF : List (String × JValue) → List (String × JValue) → Bool
  | [], [] => true
  | (k, v) :: fs, (j, w) :: gs => k == j && jbeq v w && jbeqF fs gs
  | _, _ => false

end

/-- A key acceptable for dot-path addressing: nonempty and without a
literal dot (a dotted or empty key defeats the `flatten`/`setAtPath`
round trip, as the counterexample shows). -/
def wfKey (k : String) : Bool :=
  !(k == "") && k.data.all (fun c => c ≠ '.')

/-- Does a non-leaf value carry at least one field?  An empty object
subtree produces no flat entry and is lost by reconstruction. -/
def nonEmptyObj : JValue → Bool
  | .obj [] => false
  | _ => true

/-- No repeated keys in a field list (JS objects cannot repeat keys). -/
def nodupKeys : List (String × JValue) → Bool
  | [] => true
  | (k, _) :: rest => !(mapHas rest k) && nodupKeys rest

mutual

/-- Well-formed LocaleTree payloads: at every object, keys are unique,
nonempty and dot-free, and object subtrees are nonempty.  These are
exactly the trees JSON locale files produce when their keys are used as
dot-path segments. -/
def wfTree : JValue → Bool
  | .obj fs => nodupKeys fs && wfFields fs
  | _ => true

/-- `wfTree` over a field list. -/
def wfFields : List (String × JValue) → Bool
  | [] => true
  | (k, v) :: rest => wfKey k && wfTree v && nonEmptyObj v && wfFields rest

end

mutual

/-- The tree with every object's field list reversed, at every level.
The source's stack-based `flatten` emits siblings in reverse order, so
its output reconstructs `revFields t` rather than `t` (equal up to field
order). -/
def revFields : JValue → JValue
  | .obj fs => .obj (revFieldsF fs).reverse
  | v => v

/-- `revFields` mapped over a field list (order kept; each value
recursed). -/
def revFieldsF : List (String × JValue) → List (String × JValue)
  | [] => []
  | (k, v) :: rest => (k, revFields v) :: revFieldsF rest

end

mutual

/-- Recursive restatement of the stack traversal of `flatten`: the
LIFO order emits the fields of every object in reverse. -/
def flatRR : JValue → String → List (String × JValue)
  | .obj fs, pre => flatRRF fs.reverse pre
  | v, pre => [(pre, v)]
termination_by v _ => 2 * jsize v
decreasing_by
  simp only [jsize]
  have h : jsizeF fs.reverse = jsizeF fs := by
    rw [jsizeF_eq_sum, jsizeF_eq_sum, List.map_reverse, List.sum_reverse]
  omega

/-- `flatRR` over a (already reversed) field list. -/
def flatRRF : List (String × JValue) → String → List (String × JValue)
  | [], _ => []
  | (k, v) :: rest, pre => flatRR v (joinPath pre k) ++ flatRRF rest pre
termination_by l _ => 2 * jsizeF l + 1
decreasing_by
  · simp only [jsizeF]
    have h := jsize_pos v
    omega
  · simp only [jsizeF]
    have h := jsize_pos v
    omega

end

mutual

/-- Forward flatten at the segment level: paths are segment lists, the
prefix extended by each object key in declaration order. -/
def fSegs : JValue → List String → List (List String × JValue)
  | .obj fs, pre => fSegsF fs pre
  | v, pre => [(pre, v)]

/-- `fSegs` over a field list. -/
def fSegsF : List (String × JValue) → List String → List (List String × JValue)
  | [], _ => []
  | (k, v) :: rest, pre => fSegs v (pre ++ [k]) ++ fSegsF rest pre

end

/-- Dot-joining of a segment list; inverse of `splitDot` on lists of
nonempty dot-free segments. -/
def joinSegs : List String → String
  | [] => ""
  | s :: rest => rest.foldl (fun acc k => acc ++ "." ++ k) s

/-- Reconstruction at the segment level: successive `setSegs` writes
into an initially empty tree. -/
def rebuildSegs (entries : List (List String × JValue)) : JValue :=
  entries.foldl (fun acc e => setSegs acc e.1 e.2) (.obj [])

theorem fsize_pos (v : JValue) : 0 < fsize v := by
  cases v <;> simp [fsize]

theorem fsize_le_of_mapGet (gs : List (String × JValue)) (k : String) (w : JValue)
    (h : mapGet gs k = some w) : fsize w ≤ fsizeF gs := by
  induction gs with
  | nil => simp [mapGet] at h
  | cons p rest ih =>
    cases p with
    | mk k' v' =>
      simp only [fsizeF]
      by_cases hk : k' = k
      · subst hk
        simp only [mapGet, if_true, eq_self_iff_true, ite_true, Option.some.injEq] at h
        subst h
        omega
      · simp only [mapGet, if_neg hk] at h
        have := ih h
        omega

mutual

/-- Structural equality of trees: scalars syntactically equal, arrays
(opaque sequences) deeply equal, objects carrying the same key set with
structurally equal values — field order being immaterial. -/
def structEq : JValue → JValue → Bool
  | .str a, .str b => a == b
  | .num a, .num b => a == b
  | .bool a, .bool b => a == b
  | .null, .null => true
  | .arr xs, .arr ys => jbeqL xs ys
  | .obj fs, .obj gs => structEqSub fs gs && structEqSub gs fs
  | _, _ => false
termination_by a b => fsize a + fsize b
decreasing_by
  · simp only [fsize]
    omega
  · simp only [fsize]
    omega

/-- Every field of `fs` is matched by key in `gs` with a structurally
equal value. -/
def structEqSub : List (String × JValue) → List (String × JValue) → Bool
  | [], _ => true
  | (k, v) :: rest, gs =>
    (match h : mapGet gs k with
     | some w => structEq v w
     | none => false) && structEqSub rest gs
termination_by fs gs => fsizeF fs + fsizeF gs + 1
decreasing_by
  · have h1 := fsize_le_of_mapGet gs k w h
    simp only [fsizeF]
    omega
  · simp only [fsizeF]
    have h2 := fsize_pos v
    omega

end

mutual

theorem jbeq_refl : (v : JValue) → jbeq v v = true
  | .arr xs => by simp [jbeq, jbeqL_refl xs]
  | .obj fs => by simp [jbeq, jbeqF_refl fs]
  | .str s => by simp [jbeq]
  | .num n => by simp [jbeq]
  | .bool b => by simp [jbeq]
  | .null => by simp [jbeq]
termination_by v => 2 * fsize v
decreasing_by
  all_goals simp only [fsize]
  all_goals omega

theorem jbeqL_refl : (xs : List JValue) → jbeqL xs xs = true
  | [] => rfl
  | x :: rest => by simp [jbeqL, jbeq_refl x, jbeqL_refl rest]
termination_by xs => 2 * fsizeL xs + 1
decreasing_by
  all_goals simp only [fsizeL]
  · omega
  · have := fsize_pos x
    omega

theorem jbeqF_refl : (fs : List (String × JValue)) → jbeqF fs fs = true
  | [] => rfl
  | (k, v) :: rest => by simp [jbeqF, jbeq_refl v, jbeqF_refl rest]
termination_by fs => 2 * fsizeF fs + 1
decreasing_by
  all_goals simp only [fsizeF]
  · omega
  · have := fsize_pos v
    omega

end

theorem mapGet_append {α : Type} (a b : List (String × α)) (k : String) :
    mapGet (a ++ b) k
      = match mapGet a k with
        | some v => some v
        | none => mapGet b k := by
  induction a with
  | nil => simp [mapGet]
  | cons p rest ih =>
    cases p with
    | mk k' v' =>
      by_cases hk : k' = k
      · simp [mapGet, hk]
      · simp [mapGet, hk, ih]

theorem mapSet_append_of_mapGet_none {α : Type} (m : List (String × α))
    (k : String) (v : α) (h : mapGet m k = none) :
    mapSet m k v = m ++ [(k, v)] := by
  induction m with
  | nil => rfl
  | cons p rest ih =>
    cases p with
    | mk k' v' =>
      by_cases hk : k' = k
      · subst hk
        simp [mapGet] at h
      · simp only [mapGet, if_neg hk] at h
        simp [mapSet, hk, ih h]

theorem mapSet_mapSet {α : Type} (m : List (String × α)) (k : String) (v w : α) :
    mapSet (mapSet m k v) k w = mapSet m k w := by
  induction m with
  | nil => simp [mapSet]
  | cons p rest ih =>
    cases p with
    | mk k' v' =>
      by_cases hk : k' = k
      · subst hk
        simp [mapSet]
      · simp [mapSet, hk, ih]

theorem mapGet_reverse {α : Type} (m : List (String × α)) (k : String)
    (hn : (keysOf m).Nodup) : mapGet m.reverse k = mapGet m k := by
  induction m with
  | nil => rfl
  | cons p rest ih =>
    cases p with
    | mk k' v' =>
      simp only [keysOf, List.map_cons, List.nodup_cons] at hn
      rw [List.reverse_cons, mapGet_append]
      by_cases hk : k' = k
      · subst hk
        cases hr : mapGet rest.reverse k' with
        | none => simp [mapGet]
        | some w =>
          rw [ih hn.2] at hr
          exact absurd (List.mem_map.mpr ⟨(k', w), mapGet_mem _ _ _ hr, rfl⟩) hn.1
      · rw [ih hn.2]
        cases hr : mapGet rest k with
        | none => simp [mapGet, hk, hr]
        | some w => simp [mapGet, hk, hr]

theorem keysOf_revFieldsF (fs : List (String × JValue)) :
    keysOf (revFieldsF fs) = keysOf fs := by
  induction fs with
  | nil => rfl
  | cons p rest ih =>
    cases p with
    | mk k v =>
      simp only [revFieldsF, keysOf, List.map_cons, List.cons.injEq, true_and]
      exact ih

theorem mapGet_revFieldsF (fs : List (String × JValue)) (k : String) :
    mapGet (revFieldsF fs) k = (mapGet fs k).map revFields := by
  induction fs with
  | nil => rfl
  | cons p rest ih =>
    cases p with
    | mk k' v =>
      by_cases hk : k' = k
      · simp [revFieldsF, mapGet, hk]
      · simp only [revFieldsF, mapGet, hk, if_false, ite_false]
        exact ih

theorem nodupKeys_iff (fs : List (String × JValue)) :
    nodupKeys fs = true ↔ (keysOf fs).Nodup := by
  induction fs with
  | nil => simp [nodupKeys, keysOf]
  | cons p rest ih =>
    cases p with
    | mk k v =>
      simp only [nodupKeys, Bool.and_eq_true, Bool.not_eq_true', keysOf,
        List.map_cons, List.nodup_cons, ih, mapHas_eq_false_iff]

mutual

theorem fSegs_shift : (v : JValue) → (pre : List String) →
    fSegs v pre = (fSegs v []).map (fun p => (pre ++ p.1, p.2))
  | .obj fs, pre => by
    simp only [fSegs]
    exact fSegsF_shift fs pre
  | .str s, pre => by simp [fSegs]
  | .num n, pre => by simp [fSegs]
  | .bool b, pre => by simp [fSegs]
  | .null, pre => by simp [fSegs]
  | .arr xs, pre => by simp [fSegs]
termination_by v _ => 2 * jsize v
decreasing_by
  all_goals simp only [jsize]
  all_goals omega

theorem fSegsF_shift : (fs : List (String × JValue)) → (pre : List String) →
    fSegsF fs pre = (fSegsF fs []).map (fun p => (pre ++ p.1, p.2))
  | [], pre => rfl
  | (k, v) :: rest, pre => by
    simp only [fSegsF, List.map_append, List.nil_append]
    rw [fSegs_shift v (pre ++ [k]), fSegs_shift v [k], fSegsF_shift rest pre]
    simp [List.map_map, Function.comp_def, List.append_assoc]
termination_by fs _ => 2 * jsizeF fs + 1
decreasing_by
  all_goals simp only [jsizeF]
  all_goals (have h5 := jsize_pos v; omega)

end

theorem fSegsF_heads (fs : List (String × JValue)) (pre : List String) :
    ∀ e ∈ fSegsF fs pre, ∃ k ss, e.1 = pre ++ k :: ss ∧ k ∈ keysOf fs := by
  induction fs with
  | nil => simp [fSegsF]
  | cons p rest ih =>
    obtain ⟨k, v⟩ := p
    intro e he
    simp only [fSegsF, List.mem_append] at he
    rcases he with he | he
    · rw [fSegs_shift v (pre ++ [k])] at he
      rcases List.mem_map.mp he with ⟨e0, -, rfl⟩
      exact ⟨k, e0.1, by simp [keysOf]⟩
    · rcases ih e he with ⟨k', ss, h1, h2⟩
      refine ⟨k', ss, h1, ?_⟩
      simp only [keysOf, List.map_cons]
      exact List.mem_cons_of_mem _ h2

theorem wfFields_elem (fs : List (String × JValue)) (hwf : wfFields fs = true) :
    ∀ p ∈ fs, wfKey p.1 = true ∧ wfTree p.2 = true ∧ nonEmptyObj p.2 = true := by
  induction fs with
  | nil => simp
  | cons p rest ih =>
    obtain ⟨k, v⟩ := p
    simp only [wfFields, Bool.and_eq_true] at hwf
    intro q hq
    rcases List.mem_cons.mp hq with hq | hq
    · subst hq
      exact ⟨hwf.1.1.1, hwf.1.1.2, hwf.1.2⟩
    · exact ih hwf.2 q hq

mutual

theorem fSegs_ne_nil : (v : JValue) → wfTree v = true → nonEmptyObj v = true →
    (pre : List String) → fSegs v pre ≠ []
  | .obj fs, hwf, hne, pre => by
    simp only [fSegs]
    have hfs : fs ≠ [] := by
      intro h
      subst h
      simp [nonEmptyObj] at hne
    simp only [wfTree, Bool.and_eq_true] at hwf
    exact fSegsF_ne_nil fs hwf.2 hfs pre
  | .str s, _, _, pre => by simp [fSegs]
  | .num n, _, _, pre => by simp [fSegs]
  | .bool b, _, _, pre => by simp [fSegs]
  | .null, _, _, pre => by simp [fSegs]
  | .arr xs, _, _, pre => by simp [fSegs]
termination_by v _ _ _ => 2 * jsize v
decreasing_by
  simp only [jsize]
  omega

theorem fSegsF_ne_nil : (fs : List (String × JValue)) → wfFields fs = true →
    fs ≠ [] → (pre : List String) → fSegsF fs pre ≠ []
  | [], _, hne, _ => absurd rfl hne
  | (k, v) :: rest, hwf, _, pre => by
    simp only [wfFields, Bool.and_eq_true] at hwf
    simp only [fSegsF]
    intro h
    rcases List.append_eq_nil.mp h with ⟨h1, -⟩
    exact fSegs_ne_nil v hwf.1.1.2 hwf.1.2 (pre ++ [k]) h1
termination_by fs _ _ _ => 2 * jsizeF fs + 1
decreasing_by
  simp only [jsizeF]
  have := jsize_pos v
  omega

end

mutual

theorem fSegs_keys : (v : JValue) → wfTree v = true →
    ∀ e ∈ fSegs v [], ∀ s ∈ e.1, wfKey s = true
  | .obj fs, hwf => by
    simp only [fSegs]
    simp only [wfTree, Bool.and_eq_true] at hwf
    exact fSegsF_keys fs hwf.2
  | .str s, _ => by simp [fSegs]
  | .num n, _ => by simp [fSegs]
  | .bool b, _ => by simp [fSegs]
  | .null, _ => by simp [fSegs]
  | .arr xs, _ => by simp [fSegs]
termination_by v _ => 2 * jsize v
decreasing_by
  all_goals simp only [jsize]
  all_goals omega

theorem fSegsF_keys : (fs : List (String × JValue)) → wfFields fs = true →
    ∀ e ∈ fSegsF fs [], ∀ s ∈ e.1, wfKey s = true
  | [], _ => by simp [fSegsF]
  | (k, v) :: rest, hwf => by
    simp only [wfFields, Bool.and_eq_true] at hwf
    intro e he s hs
    simp only [fSegsF, List.mem_append] at he
    rcases he with he | he
    · rw [fSegs_shift v ([] ++ [k])] at he
      rcases List.mem_map.mp he with ⟨e0, he0, rfl⟩
      simp only [List.nil_append] at hs
      rcases List.mem_append.mp hs with hs | hs
      · simp only [List.mem_singleton] at hs
        subst hs
        exact hwf.1.1.1
      · exact fSegs_keys v hwf.1.1.2 e0 he0 s hs
    · exact fSegsF_keys rest hwf.2 e he s hs
termination_by fs _ => 2 * jsizeF fs + 1
decreasing_by
  all_goals simp only [jsizeF]
  all_goals (have h5 := jsize_pos v; omega)

end

mutual

theorem fSegs_nodup : (v : JValue) → wfTree v = true →
    ((fSegs v []).map Prod.fst).Nodup
  | .obj fs, hwf => by
    simp only [fSegs]
    simp only [wfTree, Bool.and_eq_true] at hwf
    exact fSegsF_nodup fs hwf.1 hwf.2
  | .str s, _ => by simp [fSegs]
  | .num n, _ => by simp [fSegs]
  | .bool b, _ => by simp [fSegs]
  | .null, _ => by simp [fSegs]
  | .arr xs, _ => by simp [fSegs]
termination_by v _ => 2 * jsize v
decreasing_by
  all_goals simp only [jsize]
  all_goals omega

theorem fSegsF_nodup : (fs : List (String × JValue)) → nodupKeys fs = true →
    wfFields fs = true → ((fSegsF fs []).map Prod.fst).Nodup
  | [], _, _ => by simp [fSegsF]
  | (k, v) :: rest, hnd, hwf => by
    simp only [wfFields, Bool.and_eq_true] at hwf
    simp only [nodupKeys, Bool.and_eq_true, Bool.not_eq_true'] at hnd
    simp only [fSegsF, List.map_append, List.nodup_append]
    refine ⟨?_, fSegsF_nodup rest hnd.2 hwf.2, ?_⟩
    · rw [fSegs_shift v ([] ++ [k])]
      simp only [List.nil_append, List.map_map]
      have hinj : Function.Injective
          (fun ss : List String => k :: ss) := fun a b h => by
        simpa using h
      have hbase := fSegs_nodup v hwf.1.1.2
      have : (Prod.fst ∘ fun p : List String × JValue => ([k] ++ p.1, p.2))
          = (fun ss => k :: ss) ∘ Prod.fst := by
        funext p
        rfl
      rw [this, ← List.map_map]
      exact hbase.map hinj
    · intro p hp hq
      rw [fSegs_shift v ([] ++ [k])] at hp
      simp only [List.nil_append, List.map_map] at hp
      rcases List.mem_map.mp hp with ⟨e0, -, rfl⟩
      rcases List.mem_map.mp hq with ⟨e1, he1, hfst⟩
      rcases fSegsF_heads rest [] e1 he1 with ⟨k', ss, h1, h2⟩
      rw [h1] at hfst
      simp only [List.nil_append] at hfst
      have hkk : k' = k := by
        have h5 := congrArg (fun l => l.headI) hfst
        simpa using h5
      subst hkk
      exact (mapHas_eq_false_iff rest k').mp hnd.1 h2
termination_by fs _ _ => 2 * jsizeF fs + 1
decreasing_by
  all_goals simp only [jsizeF]
  all_goals (have h5 := jsize_pos v; omega)

end

theorem string_data_append (a b : String) : (a ++ b).data = a.data ++ b.data :=
  rfl

theorem string_mk_data (s : String) : String.mk s.data = s := by
  cases s
  rfl

theorem string_eq_empty_iff (s : String) : s = "" ↔ s.data = [] := by
  constructor
  · intro h
    rw [h]
  · intro h
    rw [← string_mk_data s, h]

theorem string_ne_empty_iff (s : String) : s ≠ "" ↔ s.data ≠ [] :=
  not_congr (string_eq_empty_iff s)

theorem foldl_dot_shift (rest : List String) (a b : String) :
    List.foldl (fun acc k => acc ++ "." ++ k) (a ++ b) rest
      = a ++ List.foldl (fun acc k => acc ++ "." ++ k) b rest := by
  induction rest generalizing b with
  | nil => rfl
  | cons r rs ih =>
    simp only [List.foldl_cons]
    have h := ih (b ++ "." ++ r)
    simp only [String.append_assoc] at h ⊢
    exact h

theorem joinSegs_cons_cons (s r : String) (rest : List String) :
    joinSegs (s :: r :: rest) = s ++ "." ++ joinSegs (r :: rest) := by
  simp only [joinSegs, List.foldl_cons]
  have h := foldl_dot_shift rest (s ++ ".") r
  simp only [String.append_assoc] at h ⊢
  exact h

theorem joinSegs_ne_empty (s : String) (rest : List String) (hs : s ≠ "") :
    joinSegs (s :: rest) ≠ "" := by
  cases rest with
  | nil => exact hs
  | cons r rs =>
    rw [joinSegs_cons_cons]
    rw [string_ne_empty_iff]
    rw [string_ne_empty_iff] at hs
    simp only [string_data_append]
    intro h
    rcases List.append_eq_nil.mp h with ⟨h1, -⟩
    rcases List.append_eq_nil.mp h1 with ⟨h2, -⟩
    exact hs h2

theorem joinSegs_snoc (segs : List String) (k : String)
    (h : segs = [] ∨ ∃ s rest, segs = s :: rest ∧ s ≠ "") :
    joinSegs (segs ++ [k]) = joinPath (joinSegs segs) k := by
  rcases h with rfl | ⟨s, rest, rfl, hs⟩
  · simp [joinSegs, joinPath]
  · simp only [joinSegs, List.cons_append, List.foldl_append, List.foldl_cons,
      List.foldl_nil, joinPath]
    rw [if_neg (show ¬ (List.foldl (fun acc k => acc ++ "." ++ k) s rest) = ""
      from joinSegs_ne_empty s rest hs)]

theorem splitChars_no_dot (a : List Char) (h : ∀ c ∈ a, c ≠ '.') :
    splitChars a = [a] := by
  induction a with
  | nil => rfl
  | cons c rest ih =>
    have hc : c ≠ '.' := h c (List.mem_cons_self c rest)
    simp only [splitChars, if_neg hc]
    rw [ih (fun d hd => h d (List.mem_cons_of_mem c hd))]

theorem splitChars_append_dot (a rest : List Char) (h : ∀ c ∈ a, c ≠ '.') :
    splitChars (a ++ '.' :: rest) = a :: splitChars rest := by
  induction a with
  | nil => simp [splitChars]
  | cons c a' ih =>
    have hc : c ≠ '.' := h c (List.mem_cons_self c a')
    simp only [List.cons_append, splitChars, if_neg hc]
    have h2 := ih (fun d hd => h d (List.mem_cons_of_mem c hd))
    rw [show List.append a' ('.' :: rest) = a' ++ '.' :: rest from rfl, h2]

theorem wfKey_chars (s : String) (h : wfKey s = true) :
    s ≠ "" ∧ ∀ c ∈ s.data, c ≠ '.' := by
  simp only [wfKey, Bool.and_eq_true, Bool.not_eq_true', beq_eq_false_iff_ne,
    List.all_eq_true, decide_eq_true_eq] at h
  exact ⟨h.1, h.2⟩

theorem splitDot_joinSegs (segs : List String) (hne : segs ≠ [])
    (hwf : ∀ s ∈ segs, wfKey s = true) : splitDot (joinSegs segs) = segs := by
  induction segs with
  | nil => exact absurd rfl hne
  | cons s rest ih =>
    cases rest with
    | nil =>
      have hk := wfKey_chars s (hwf s (by simp))
      simp only [joinSegs, List.foldl_nil, splitDot]
      rw [splitChars_no_dot s.data hk.2]
      simp [string_mk_data]
    | cons r rs =>
      have hk := wfKey_chars s (hwf s (by simp))
      rw [joinSegs_cons_cons]
      unfold splitDot
      rw [show (s ++ "." ++ joinSegs (r :: rs)).data
          = s.data ++ '.' :: (joinSegs (r :: rs)).data from by
        simp [string_data_append]]
      rw [splitChars_append_dot s.data _ hk.2]
      simp only [List.map_cons, string_mk_data]
      rw [show (splitChars (joinSegs (r :: rs)).data).map (fun cs => String.mk cs)
          = splitDot (joinSegs (r :: rs)) from rfl]
      rw [ih (by simp) (fun q hq => hwf q (List.mem_cons_of_mem s hq))]

theorem flatRR_of_ne_obj (v : JValue) (pre : String)
    (h : ∀ fs, v ≠ .obj fs) : flatRR v pre = [(pre, v)] := by
  cases v with
  | obj fs => exact absurd rfl (h fs)
  | str s => simp [flatRR]
  | num n => simp [flatRR]
  | bool b => simp [flatRR]
  | null => simp [flatRR]
  | arr xs => simp [flatRR]

theorem flatRRF_eq_flatMap (l : List (String × JValue)) (pre : String) :
    flatRRF l pre = l.flatMap (fun p => flatRR p.2 (joinPath pre p.1)) := by
  induction l with
  | nil => simp [flatRRF]
  | cons p rest ih =>
    obtain ⟨k, v⟩ := p
    simp only [flatRRF, List.flatMap_cons, ih]

/-- The emitted work of a flatten stack: the entries its frames will
eventually produce, in order. -/
def stackWork (stack : List (String × JValue)) : List (String × JValue) :=
  stack.flatMap (fun p => flatRR p.2 p.1)

theorem flattenLoop_eq (out stack : List (String × JValue))
    (hn : (keysOf out ++ keysOf (stackWork stack)).Nodup) :
    flattenLoop out stack = out ++ stackWork stack := by
  induction out, stack using flattenLoop.induct with
  | case1 out => simp [flattenLoop, stackWork]
  | case2 out path rest fs ih =>
    rw [flattenLoop]
    have hwork : stackWork (((fs.map (fun p => (joinPath path p.1, p.2))).reverse) ++ rest)
        = stackWork ((path, .obj fs) :: rest) := by
      simp only [stackWork, List.flatMap_append, List.flatMap_cons]
      congr 1
      rw [show flatRR (JValue.obj fs) path = flatRRF fs.reverse path from by
        simp [flatRR]]
      rw [flatRRF_eq_flatMap]
      rw [← List.map_reverse, List.flatMap_map]
    rw [ih (by rw [hwork]; exact hn), hwork]
  | case3 out path v rest hv ih =>
    rw [flattenLoop]
    · have hleaf : flatRR v path = [(path, v)] := by
        apply flatRR_of_ne_obj
        intro fs hfs
        exact hv fs hfs
      have hwork : stackWork ((path, v) :: rest)
          = (path, v) :: stackWork rest := by
        simp [stackWork, List.flatMap_cons, hleaf]
      rw [hwork] at hn
      have hpath : mapGet out path = none := by
        cases hg : mapGet out path with
        | none => rfl
        | some w =>
          have hmem : path ∈ keysOf out :=
            List.mem_map.mpr ⟨(path, w), mapGet_mem _ _ _ hg, rfl⟩
          have : path ∉ keysOf out := by
            have hnd := hn
            rw [List.nodup_append] at hnd
            intro hmem2
            exact hnd.2.2 hmem2 (by simp [keysOf])
          exact absurd hmem this
      have hset : mapSet out path v = out ++ [(path, v)] :=
        mapSet_append_of_mapGet_none out path v hpath
      rw [ih ?_, hset, hwork]
      · simp [List.append_assoc]
      · rw [hset]
        simp only [keysOf, List.map_append, List.map_cons, List.map_nil] at hn ⊢
        simpa [List.append_assoc] using hn
    · exact hv

theorem flatten_eq_flatRR (t : JValue) (hn : (keysOf (flatRR t "")).Nodup) :
    flatten t = flatRR t "" := by
  unfold flatten
  have h := flattenLoop_eq [] [("", t)] ?_
  · simpa [stackWork] using h
  · simpa [keysOf, stackWork] using hn

theorem revFieldsF_eq_map (fs : List (String × JValue)) :
    revFieldsF fs = fs.map (fun p => (p.1, revFields p.2)) := by
  induction fs with
  | nil => rfl
  | cons p rest ih =>
    obtain ⟨k, v⟩ := p
    simp [revFieldsF, ih]

theorem revFieldsF_reverse (fs : List (String × JValue)) :
    revFieldsF fs.reverse = (revFieldsF fs).reverse := by
  rw [revFieldsF_eq_map, revFieldsF_eq_map, List.map_reverse]

theorem revFieldsF_length (fs : List (String × JValue)) :
    (revFieldsF fs).length = fs.length := by
  rw [revFieldsF_eq_map, List.length_map]

theorem nonEmptyObj_revFields (v : JValue) (h : nonEmptyObj v = true) :
    nonEmptyObj (revFields v) = true := by
  cases v with
  | obj fs =>
    cases fs with
    | nil => simp [nonEmptyObj] at h
    | cons p rest =>
      simp only [revFields, nonEmptyObj]
      cases hrev : (revFieldsF (p :: rest)).reverse with
      | nil =>
        have hlen := congrArg List.length hrev
        rw [List.length_reverse, revFieldsF_length] at hlen
        simp at hlen
      | cons q qs => simp
  | str s => simp [revFields, nonEmptyObj]
  | num n => simp [revFields, nonEmptyObj]
  | bool b => simp [revFields, nonEmptyObj]
  | null => simp [revFields, nonEmptyObj]
  | arr xs => simp [revFields, nonEmptyObj]

theorem wfFields_of_all (fs : List (String × JValue))
    (h : ∀ p ∈ fs, wfKey p.1 = true ∧ wfTree p.2 = true ∧ nonEmptyObj p.2 = true) :
    wfFields fs = true := by
  induction fs with
  | nil => rfl
  | cons p rest ih =>
    obtain ⟨k, v⟩ := p
    have hp := h (k, v) (List.mem_cons_self _ _)
    simp only [wfFields, Bool.and_eq_true]
    exact ⟨⟨⟨hp.1, hp.2.1⟩, hp.2.2⟩, ih (fun q hq => h q (List.mem_cons_of_mem _ hq))⟩

mutual

theorem wfTree_revFields : (v : JValue) → wfTree v = true →
    wfTree (revFields v) = true
  | .obj fs, h => by
    simp only [wfTree, Bool.and_eq_true] at h
    simp only [revFields, wfTree, Bool.and_eq_true]
    constructor
    · rw [nodupKeys_iff] at h ⊢
      have hk : keysOf ((revFieldsF fs).reverse) = (keysOf fs).reverse := by
        simp only [keysOf] at *
        rw [List.map_reverse]
        rw [show List.map Prod.fst (revFieldsF fs) = List.map Prod.fst fs from by
          simpa [keysOf] using keysOf_revFieldsF fs]
      rw [hk, List.nodup_reverse]
      exact h.1
    · apply wfFields_of_all
      intro p hp
      rw [List.mem_reverse, revFieldsF_eq_map, List.mem_map] at hp
      rcases hp with ⟨q, hq, rfl⟩
      have hflds := wfFields_elem fs h.2 q hq
      have hrec := wfFields_revAll fs h.2 q hq
      exact ⟨hflds.1, hrec.1, hrec.2⟩
  | .str s, _ => by simp [revFields, wfTree]
  | .num n, _ => by simp [revFields, wfTree]
  | .bool b, _ => by simp [revFields, wfTree]
  | .null, _ => by simp [revFields, wfTree]
  | .arr xs, _ => by simp [revFields, wfTree]
termination_by v _ => 2 * jsize v
decreasing_by
  all_goals simp only [jsize]
  all_goals omega

theorem wfFields_revAll : (fs : List (String × JValue)) → wfFields fs = true →
    ∀ p ∈ fs, wfTree (revFields p.2) = true ∧ nonEmptyObj (revFields p.2) = true
  | [], _ => by simp
  | (k, v) :: rest, h => by
    simp only [wfFields, Bool.and_eq_true] at h
    intro p hp
    rcases List.mem_cons.mp hp with hp | hp
    · subst hp
      exact ⟨wfTree_revFields v h.1.1.2, nonEmptyObj_revFields v h.1.2⟩
    · exact wfFields_revAll rest h.2 p hp
termination_by fs _ => 2 * jsizeF fs + 1
decreasing_by
  all_goals simp only [jsizeF]
  all_goals (have h5 := jsize_pos v; omega)

end

mutual

theorem flatRR_rev : (v : JValue) → (segs : List String) →
    (∀ s ∈ segs, s ≠ "") → wfTree v = true →
    flatRR v (joinSegs segs)
      = (fSegs (revFields v) segs).map (fun p => (joinSegs p.1, p.2))
  | .obj fs, segs, hsegs, hwf => by
    simp only [wfTree, Bool.and_eq_true] at hwf
    rw [show flatRR (JValue.obj fs) (joinSegs segs) = flatRRF fs.reverse (joinSegs segs)
      from by simp [flatRR]]
    rw [show revFields (JValue.obj fs) = .obj ((revFieldsF fs).reverse) from by
      simp [revFields]]
    rw [show fSegs (JValue.obj ((revFieldsF fs).reverse)) segs
        = fSegsF ((revFieldsF fs).reverse) segs from by simp [fSegs]]
    rw [← revFieldsF_reverse]
    apply flatRRF_rev fs.reverse segs hsegs
    intro p hp
    rw [List.mem_reverse] at hp
    have h := wfFields_elem fs hwf.2 p hp
    exact ⟨h.1, h.2.1⟩
  | .str s, segs, hsegs, hwf => by simp [flatRR, revFields, fSegs]
  | .num n, segs, hsegs, hwf => by simp [flatRR, revFields, fSegs]
  | .bool b, segs, hsegs, hwf => by simp [flatRR, revFields, fSegs]
  | .null, segs, hsegs, hwf => by simp [flatRR, revFields, fSegs]
  | .arr xs, segs, hsegs, hwf => by simp [flatRR, revFields, fSegs]
termination_by v _ _ _ => 2 * jsize v
decreasing_by
  simp only [jsize]
  have h : jsizeF fs.reverse = jsizeF fs := by
    rw [jsizeF_eq_sum, jsizeF_eq_sum, List.map_reverse, List.sum_reverse]
  omega

theorem flatRRF_rev : (l : List (String × JValue)) → (segs : List String) →
    (∀ s ∈ segs, s ≠ "") →
    (∀ p ∈ l, wfKey p.1 = true ∧ wfTree p.2 = true) →
    flatRRF l (joinSegs segs)
      = (fSegsF (revFieldsF l) segs).map (fun p => (joinSegs p.1, p.2))
  | [], segs, _, _ => by simp [flatRRF, revFieldsF, fSegsF]
  | (k, v) :: rest, segs, hsegs, hl => by
    have hk := hl (k, v) (List.mem_cons_self _ _)
    have hkk : k ≠ "" := (wfKey_chars k hk.1).1
    have hsnoc : joinSegs (segs ++ [k]) = joinPath (joinSegs segs) k := by
      apply joinSegs_snoc
      cases segs with
      | nil => exact Or.inl rfl
      | cons s r => exact Or.inr ⟨s, r, rfl, hsegs s (List.mem_cons_self _ _)⟩
    rw [show flatRRF ((k, v) :: rest) (joinSegs segs)
        = flatRR v (joinPath (joinSegs segs) k) ++ flatRRF rest (joinSegs segs)
      from by simp [flatRRF]]
    rw [show revFieldsF ((k, v) :: rest) = (k, revFields v) :: revFieldsF rest
      from by simp [revFieldsF]]
    rw [show fSegsF ((k, revFields v) :: revFieldsF rest) segs
        = fSegs (revFields v) (segs ++ [k]) ++ fSegsF (revFieldsF rest) segs
      from by simp [fSegsF]]
    rw [List.map_append, ← hsnoc]
    rw [flatRR_rev v (segs ++ [k]) ?_ hk.2]
    · rw [flatRRF_rev rest segs hsegs
        (fun p hp => hl p (List.mem_cons_of_mem _ hp))]
    · intro s hs
      rcases List.mem_append.mp hs with hs | hs
      · exact hsegs s hs
      · simp only [List.mem_singleton] at hs
        subst hs
        exact hkk
termination_by l _ _ _ => 2 * jsizeF l + 1
decreasing_by
  all_goals simp only [jsizeF]
  all_goals (have h5 := jsize_pos v; omega)

end

theorem flatRR_keys_nodup (t : JValue) (hwf : wfTree t = true) :
    (keysOf (flatRR t "")).Nodup := by
  have hrev := wfTree_revFields t hwf
  rw [show ("" : String) = joinSegs [] from rfl,
    flatRR_rev t [] (by simp) hwf]
  simp only [keysOf, List.map_map]
  have hcomp : (Prod.fst ∘ fun p : List String × JValue => (joinSegs p.1, p.2))
      = joinSegs ∘ Prod.fst := by
    funext p
    rfl
  rw [hcomp, ← List.map_map]
  apply List.Nodup.map_on ?_ (fSegs_nodup (revFields t) hrev)
  intro x hx y hy hj
  rcases List.mem_map.mp hx with ⟨ex, hex, rfl⟩
  rcases List.mem_map.mp hy with ⟨ey, hey, rfl⟩
  cases hrf : revFields t with
  | obj gs =>
    rw [hrf] at hex hey
    have hxw : ∀ s ∈ ex.1, wfKey s = true := by
      have := fSegs_keys (JValue.obj gs) (hrf ▸ hrev) ex hex
      exact this
    have hyw : ∀ s ∈ ey.1, wfKey s = true := by
      exact fSegs_keys (JValue.obj gs) (hrf ▸ hrev) ey hey
    have hxne : ex.1 ≠ [] := by
      simp only [fSegs] at hex
      rcases fSegsF_heads gs [] ex hex with ⟨k, ss, h1, -⟩
      rw [h1]
      simp
    have hyne : ey.1 ≠ [] := by
      simp only [fSegs] at hey
      rcases fSegsF_heads gs [] ey hey with ⟨k, ss, h1, -⟩
      rw [h1]
      simp
    have := congrArg splitDot hj
    rw [splitDot_joinSegs ex.1 hxne hxw, splitDot_joinSegs ey.1 hyne hyw] at this
    exact this
  | str s =>
    rw [hrf] at hex hey
    simp only [fSegs, List.mem_singleton] at hex hey
    rw [hex, hey]
  | num n =>
    rw [hrf] at hex hey
    simp only [fSegs, List.mem_singleton] at hex hey
    rw [hex, hey]
  | bool b =>
    rw [hrf] at hex hey
    simp only [fSegs, List.mem_singleton] at hex hey
    rw [hex, hey]
  | null =>
    rw [hrf] at hex hey
    simp only [fSegs, List.mem_singleton] at hex hey
    rw [hex, hey]
  | arr xs =>
    rw [hrf] at hex hey
    simp only [fSegs, List.mem_singleton] at hex hey
    rw [hex, hey]

theorem propSet_objLike (c : JValue) (k : String) (v : JValue)
    (h : objLike c = true) : objLike (propSet c k v) = true := by
  cases c with
  | obj fs => simp [propSet, objLike]
  | arr xs =>
    simp only [propSet]
    cases canonIndex k with
    | none => simp [objLike]
    | some i =>
      by_cases hi : i < xs.length
      · simp [hi, objLike]
      · simp [hi, objLike]
  | str s => simp [objLike] at h
  | num n => simp [objLike] at h
  | bool b => simp [objLike] at h
  | null => simp [objLike] at h

theorem objLike_setSegs (c : JValue) (segs : List String) (v : JValue)
    (h : objLike c = true) : objLike (setSegs c segs v) = true := by
  cases segs with
  | nil => simpa [setSegs] using h
  | cons a rest =>
    cases rest with
    | nil =>
      simp only [setSegs]
      exact propSet_objLike c a v h
    | cons b rest2 =>
      simp only [setSegs]
      exact propSet_objLike c a _ h

theorem setSegs_cons_of_some (gs : List (String × JValue)) (k : String)
    (c : JValue) (s0 : String) (srest : List String) (v : JValue)
    (hget : mapGet gs k = some c) (hol : objLike c = true) :
    setSegs (.obj gs) (k :: s0 :: srest) v
      = .obj (mapSet gs k (setSegs c (s0 :: srest) v)) := by
  simp only [setSegs, propGet, hget, if_pos hol, propSet]

theorem setSegs_cons_of_none (gs : List (String × JValue)) (k : String)
    (s0 : String) (srest : List String) (v : JValue)
    (hget : mapGet gs k = none) :
    setSegs (.obj gs) (k :: s0 :: srest) v
      = .obj (mapSet gs k (setSegs (.obj []) (s0 :: srest) v)) := by
  simp only [setSegs, propGet, hget, propSet]

theorem foldl_prepend (F : List (List String × JValue))
    (gs : List (String × JValue)) (k : String) (c : JValue)
    (hget : mapGet gs k = some c) (hol : objLike c = true)
    (hne : ∀ e ∈ F, e.1 ≠ []) :
    List.foldl (fun acc e => setSegs acc e.1 e.2) (.obj gs)
        (F.map (fun e => (k :: e.1, e.2)))
      = .obj (mapSet gs k
          (List.foldl (fun acc e => setSegs acc e.1 e.2) c F)) := by
  induction F generalizing gs c with
  | nil =>
    simp only [List.map_nil, List.foldl_nil]
    rw [mapSet_self_of_mapGet gs k c hget]
  | cons e F' ih =>
    obtain ⟨segs, v⟩ := e
    have hsegs : segs ≠ [] := hne (segs, v) (List.mem_cons_self _ _)
    obtain ⟨s0, srest, rfl⟩ : ∃ s0 srest, segs = s0 :: srest := by
      cases segs with
      | nil => exact absurd rfl hsegs
      | cons a b => exact ⟨a, b, rfl⟩
    simp only [List.map_cons, List.foldl_cons]
    rw [setSegs_cons_of_some gs k c s0 srest v hget hol]
    rw [ih (mapSet gs k (setSegs c (s0 :: srest) v)) (setSegs c (s0 :: srest) v)
      (mapGet_mapSet_self _ _ _) (objLike_setSegs c _ v hol)
      (fun e he => hne e (List.mem_cons_of_mem _ he))]
    rw [mapSet_mapSet]

theorem foldl_prepend_absent (F : List (List String × JValue))
    (gs : List (String × JValue)) (k : String)
    (hget : mapGet gs k = none) (hne : ∀ e ∈ F, e.1 ≠ []) (hF : F ≠ []) :
    List.foldl (fun acc e => setSegs acc e.1 e.2) (.obj gs)
        (F.map (fun e => (k :: e.1, e.2)))
      = .obj (mapSet gs k
          (List.foldl (fun acc e => setSegs acc e.1 e.2) (.obj []) F)) := by
  cases F with
  | nil => exact absurd rfl hF
  | cons e F' =>
    obtain ⟨segs, v⟩ := e
    have hsegs : segs ≠ [] := hne (segs, v) (List.mem_cons_self _ _)
    obtain ⟨s0, srest, rfl⟩ : ∃ s0 srest, segs = s0 :: srest := by
      cases segs with
      | nil => exact absurd rfl hsegs
      | cons a b => exact ⟨a, b, rfl⟩
    simp only [List.map_cons, List.foldl_cons]
    rw [setSegs_cons_of_none gs k s0 srest v hget]
    rw [foldl_prepend F' (mapSet gs k (setSegs (.obj []) (s0 :: srest) v)) k
      (setSegs (.obj []) (s0 :: srest) v) (mapGet_mapSet_self _ _ _)
      (objLike_setSegs _ _ _ (by simp [objLike]))
      (fun e he => hne e (List.mem_cons_of_mem _ he))]
    rw [mapSet_mapSet]

mutual

theorem rebuild_val : (v : JValue) → wfTree v = true → isPlainObject v = true →
    List.foldl (fun acc e => setSegs acc e.1 e.2) (.obj []) (fSegs v []) = v
  | .obj fs, hwf, _ => by
    simp only [wfTree, Bool.and_eq_true] at hwf
    rw [show fSegs (JValue.obj fs) [] = fSegsF fs [] from by simp [fSegs]]
    have h := rebuild_fields fs [] hwf.1 hwf.2 (by simp [mapGet])
    simpa using h
  | .str s, _, hobj => by simp [isPlainObject] at hobj
  | .num n, _, hobj => by simp [isPlainObject] at hobj
  | .bool b, _, hobj => by simp [isPlainObject] at hobj
  | .null, _, hobj => by simp [isPlainObject] at hobj
  | .arr xs, _, hobj => by simp [isPlainObject] at hobj
termination_by v _ _ => 2 * jsize v
decreasing_by
  simp only [jsize]
  omega

theorem rebuild_fields : (fs : List (String × JValue)) →
    (gs : List (String × JValue)) → nodupKeys fs = true → wfFields fs = true →
    (∀ p ∈ fs, mapGet gs p.1 = none) →
    List.foldl (fun acc e => setSegs acc e.1 e.2) (.obj gs) (fSegsF fs [])
      = .obj (gs ++ fs)
  | [], gs, _, _, _ => by simp [fSegsF]
  | (k, v) :: rest, gs, hnd, hwf, habs => by
    simp only [nodupKeys, Bool.and_eq_true, Bool.not_eq_true'] at hnd
    simp only [wfFields, Bool.and_eq_true] at hwf
    have hkabs : mapGet gs k = none := habs (k, v) (List.mem_cons_self _ _)
    rw [show fSegsF ((k, v) :: rest) [] = fSegs v ([] ++ [k]) ++ fSegsF rest []
      from by simp [fSegsF]]
    rw [List.foldl_append]
    have hchunk : List.foldl (fun acc e => setSegs acc e.1 e.2) (.obj gs)
        (fSegs v ([] ++ [k])) = .obj (gs ++ [(k, v)]) := by
      cases hv : v with
      | obj fs' =>
        rw [fSegs_shift (JValue.obj fs') ([] ++ [k])]
        rw [show (fun p : List String × JValue => (([] ++ [k]) ++ p.1, p.2))
            = (fun e : List String × JValue => (k :: e.1, e.2)) from by
          funext p
          rfl]
        rw [foldl_prepend_absent (fSegs (JValue.obj fs') []) gs k hkabs ?_ ?_]
        · rw [rebuild_val (JValue.obj fs') (hv ▸ hwf.1.1.2) rfl]
          rw [mapSet_append_of_mapGet_none gs k _ hkabs]
        · intro e he
          rw [show fSegs (JValue.obj fs') [] = fSegsF fs' [] from by simp [fSegs]] at he
          rcases fSegsF_heads fs' [] e he with ⟨k', ss, h1, -⟩
          rw [h1]
          simp
        · exact fSegs_ne_nil (JValue.obj fs') (hv ▸ hwf.1.1.2) (hv ▸ hwf.1.2) []
      | str s =>
        subst hv
        rw [show fSegs (JValue.str s) ([] ++ [k]) = [([] ++ [k], JValue.str s)]
          from by simp [fSegs]]
        simp only [List.foldl_cons, List.foldl_nil, List.nil_append, setSegs, propSet]
        rw [mapSet_append_of_mapGet_none gs k _ hkabs]
      | num n =>
        subst hv
        rw [show fSegs (JValue.num n) ([] ++ [k]) = [([] ++ [k], JValue.num n)]
          from by simp [fSegs]]
        simp only [List.foldl_cons, List.foldl_nil, List.nil_append, setSegs, propSet]
        rw [mapSet_append_of_mapGet_none gs k _ hkabs]
      | bool b =>
        subst hv
        rw [show fSegs (JValue.bool b) ([] ++ [k]) = [([] ++ [k], JValue.bool b)]
          from by simp [fSegs]]
        simp only [List.foldl_cons, List.foldl_nil, List.nil_append, setSegs, propSet]
        rw [mapSet_append_of_mapGet_none gs k _ hkabs]
      | null =>
        subst hv
        rw [show fSegs JValue.null ([] ++ [k]) = [([] ++ [k], JValue.null)]
          from by simp [fSegs]]
        simp only [List.foldl_cons, List.foldl_nil, List.nil_append, setSegs, propSet]
        rw [mapSet_append_of_mapGet_none gs k _ hkabs]
      | arr xs =>
        subst hv
        rw [show fSegs (JValue.arr xs) ([] ++ [k]) = [([] ++ [k], JValue.arr xs)]
          from by simp [fSegs]]
        simp only [List.foldl_cons, List.foldl_nil, List.nil_append, setSegs, propSet]
        rw [mapSet_append_of_mapGet_none gs k _ hkabs]
    rw [hchunk]
    rw [rebuild_fields rest (gs ++ [(k, v)]) hnd.2 hwf.2 ?_]
    · rw [List.append_assoc]
      rfl
    · intro p hp
      rw [mapGet_append]
      rw [habs p (List.mem_cons_of_mem _ hp)]
      have hpk : p.1 ≠ k := by
        intro hh
        have : p.1 ∈ keysOf rest := List.mem_map.mpr ⟨p, hp, rfl⟩
        rw [hh] at this
        exact (mapHas_eq_false_iff rest k).mp hnd.1 this
      simp [mapGet, Ne.symm hpk]
termination_by fs _ _ _ _ => 2 * jsizeF fs + 1
decreasing_by
  all_goals simp only [jsizeF]
  all_goals first
    | omega
    | (have h5 := jsize_pos v; omega)
    | (rw [hv]; omega)

end

theorem structEqSub_cons (k : String) (v : JValue)
    (rest bs : List (String × JValue)) (w : JValue)
    (hw : mapGet bs k = some w) :
    structEqSub ((k, v) :: rest) bs = (structEq v w && structEqSub rest bs) := by
  simp only [structEqSub]
  congr 1
  split
  next w' heq =>
    rw [hw] at heq
    injection heq with he
    rw [he]
  next heq =>
    rw [hw] at heq
    exact absurd heq (by simp)

theorem structEqSub_of_forall (as bs : List (String × JValue))
    (h : ∀ p ∈ as, ∃ w, mapGet bs p.1 = some w ∧ structEq p.2 w = true) :
    structEqSub as bs = true := by
  induction as with
  | nil => simp [structEqSub]
  | cons p rest ih =>
    obtain ⟨k, v⟩ := p
    rcases h (k, v) (List.mem_cons_self _ _) with ⟨w, hw, hs⟩
    rw [structEqSub_cons k v rest bs w hw, Bool.and_eq_true]
    exact ⟨hs, ih (fun q hq => h q (List.mem_cons_of_mem _ hq))⟩

mutual

theorem structEq_rev : (v : JValue) → wfTree v = true →
    structEq (revFields v) v = true
  | .obj fs, hwf => by
    simp only [wfTree, Bool.and_eq_true] at hwf
    have hnd : (keysOf fs).Nodup := (nodupKeys_iff fs).mp hwf.1
    rw [show revFields (JValue.obj fs) = .obj ((revFieldsF fs).reverse) from by
      simp [revFields]]
    rw [show structEq (JValue.obj ((revFieldsF fs).reverse)) (JValue.obj fs)
        = (structEqSub ((revFieldsF fs).reverse) fs
           && structEqSub fs ((revFieldsF fs).reverse)) from by simp [structEq]]
    rw [Bool.and_eq_true]
    constructor
    · apply structEqSub_of_forall
      intro p hp
      rw [List.mem_reverse, revFieldsF_eq_map, List.mem_map] at hp
      rcases hp with ⟨q, hq, rfl⟩
      exact ⟨q.2, mem_mapGet_of_nodup fs q.1 q.2 hnd hq,
        (structEq_revAllF fs hwf.2 q hq).1⟩
    · apply structEqSub_of_forall
      intro p hp
      refine ⟨revFields p.2, ?_, (structEq_revAllF fs hwf.2 p hp).2⟩
      have hndrev : (keysOf (revFieldsF fs)).Nodup := by
        rw [keysOf_revFieldsF]
        exact hnd
      rw [mapGet_reverse _ _ hndrev, mapGet_revFieldsF,
        mem_mapGet_of_nodup fs p.1 p.2 hnd hp]
      rfl
  | .str s, _ => by simp [revFields, structEq]
  | .num n, _ => by simp [revFields, structEq]
  | .bool b, _ => by simp [revFields, structEq]
  | .null, _ => by simp [revFields, structEq]
  | .arr xs, _ => by
    rw [show revFields (JValue.arr xs) = JValue.arr xs from by simp [revFields]]
    rw [show structEq (JValue.arr xs) (JValue.arr xs) = jbeqL xs xs from by
      simp [structEq]]
    exact jbeqL_refl xs
termination_by v _ => 2 * jsize v
decreasing_by
  all_goals simp only [jsize]
  all_goals omega

theorem structEq_rev2 : (v : JValue) → wfTree v = true →
    structEq v (revFields v) = true
  | .obj fs, hwf => by
    simp only [wfTree, Bool.and_eq_true] at hwf
    have hnd : (keysOf fs).Nodup := (nodupKeys_iff fs).mp hwf.1
    rw [show revFields (JValue.obj fs) = .obj ((revFieldsF fs).reverse) from by
      simp [revFields]]
    rw [show structEq (JValue.obj fs) (JValue.obj ((revFieldsF fs).reverse))
        = (structEqSub fs ((revFieldsF fs).reverse)
           && structEqSub ((revFieldsF fs).reverse) fs) from by simp [structEq]]
    rw [Bool.and_eq_true]
    constructor
    · apply structEqSub_of_forall
      intro p hp
      refine ⟨revFields p.2, ?_, (structEq_revAllF2 fs hwf.2 p hp).1⟩
      have hndrev : (keysOf (revFieldsF fs)).Nodup := by
        rw [keysOf_revFieldsF]
        exact hnd
      rw [mapGet_reverse _ _ hndrev, mapGet_revFieldsF,
        mem_mapGet_of_nodup fs p.1 p.2 hnd hp]
      rfl
    · apply structEqSub_of_forall
      intro p hp
      rw [List.mem_reverse, revFieldsF_eq_map, List.mem_map] at hp
      rcases hp with ⟨q, hq, rfl⟩
      exact ⟨q.2, mem_mapGet_of_nodup fs q.1 q.2 hnd hq,
        (structEq_revAllF2 fs hwf.2 q hq).2⟩
  | .str s, _ => by simp [revFields, structEq]
  | .num n, _ => by simp [revFields, structEq]
  | .bool b, _ => by simp [revFields, structEq]
  | .null, _ => by simp [revFields, structEq]
  | .arr xs, _ => by
    rw [show revFields (JValue.arr xs) = JValue.arr xs from by simp [revFields]]
    rw [show structEq (JValue.arr xs) (JValue.arr xs) = jbeqL xs xs from by
      simp [structEq]]
    exact jbeqL_refl xs
termination_by v _ => 2 * jsize v
decreasing_by
  all_goals simp only [jsize]
  all_goals omega

theorem structEq_revAllF : (fs : List (String × JValue)) → wfFields fs = true →
    ∀ p ∈ fs, structEq (revFields p.2) p.2 = true ∧
      structEq p.2 (revFields p.2) = true
  | [], _ => by simp
  | (k, v) :: rest, hwf => by
    simp only [wfFields, Bool.and_eq_true] at hwf
    intro p hp
    rcases List.mem_cons.mp hp with hp | hp
    · subst hp
      exact ⟨structEq_rev v hwf.1.1.2, structEq_rev2 v hwf.1.1.2⟩
    · exact structEq_revAllF rest hwf.2 p hp
termination_by fs _ => 2 * jsizeF fs + 1
decreasing_by
  all_goals simp only [jsizeF]
  all_goals (have h5 := jsize_pos v; omega)

theorem structEq_revAllF2 : (fs : List (String × JValue)) → wfFields fs = true →
    ∀ p ∈ fs, structEq p.2 (revFields p.2) = true ∧
      structEq (revFields p.2) p.2 = true
  | [], _ => by simp
  | (k, v) :: rest, hwf => by
    simp only [wfFields, Bool.and_eq_true] at hwf
    intro p hp
    rcases List.mem_cons.mp hp with hp | hp
    · subst hp
      exact ⟨structEq_rev2 v hwf.1.1.2, structEq_rev v hwf.1.1.2⟩
    · exact structEq_revAllF2 rest hwf.2 p hp
termination_by fs _ => 2 * jsizeF fs + 1
decreasing_by
  all_goals simp only [jsizeF]
  all_goals (have h5 := jsize_pos v; omega)

end

/-- Folding two functions that agree on the list's elements gives the
same result. -/
theorem foldl_congr_mem {α β : Type} (l : List β) (f g : α → β → α) (a : α)
    (h : ∀ acc e, e ∈ l → f acc e = g acc e) :
    l.foldl f a = l.foldl g a := by
  induction l generalizing a with
  | nil => rfl
  | cons x xs ih =>
    simp only [List.foldl_cons]
    rw [h a x (List.mem_cons_self _ _)]
    exact ih _ (fun acc e he => h acc e (List.mem_cons_of_mem _ he))

/-- Reconstruction from a flat entry list: `setAtPath` each entry into
an initially empty tree, in order — exactly the consumer loops of
`translateWholeFile` and `syncLanguage`. -/
def reconstruct (flat : List (String × JValue)) : JValue :=
  flat.foldl (fun acc e => setAtPath acc e.1 e.2) (.obj [])

/-- A key containing a dot breaks the round-trip: `flatten` joins path
segments with `"."`, and `setAtPath` re-splits on every `"."`, so the
single key `"a.b"` comes back as two nested levels. -/
theorem claim_C4_counterexample :
    structEq (reconstruct (flatten (JValue.obj [("a.b", .str "x")])))
      (JValue.obj [("a.b", .str "x")]) = false := by
  have h : flatten (JValue.obj [("a.b", .str "x")]) = [("a.b", .str "x")] := by
    simp [flatten, flattenLoop, joinPath, mapSet]
  rw [h]
  rw [show reconstruct [("a.b", JValue.str "x")]
      = .obj [("a", .obj [("b", .str "x")])] from rfl]
  simp [structEq, structEqSub, mapGet]

/-- C4 (amended): the spec's round-trip claim fails for arbitrary
`LocaleTree`s (dotted or empty keys, empty-object subtrees, non-object
roots — see `claim_C4_counterexample`); it holds for the well-formed
trees actually produced by parsing locale JSON: an object root whose
keys, at every level, are non-empty, dot-free and duplicate-free, and
whose object subtrees are non-empty.  For such `t`, reconstructing every
`(path, value)` entry of `flatten t` via `setAtPath` into an initially
empty tree yields a tree structurally equal to `t`. -/
theorem claim_C4 (t : JValue) (hwf : wfTree t = true)
    (hobj : isPlainObject t = true) :
    structEq (reconstruct (flatten t)) t = true := by
  unfold reconstruct
  rw [flatten_eq_flatRR t (flatRR_keys_nodup t hwf)]
  rw [show ("" : String) = joinSegs [] from rfl, flatRR_rev t [] (by simp) hwf]
  rw [List.foldl_map]
  have hrev := wfTree_revFields t hwf
  have hobjrev : isPlainObject (revFields t) = true := by
    cases t <;> simp_all [isPlainObject, revFields]
  have hkeys := fSegs_keys (revFields t) hrev
  obtain ⟨gs, hgs⟩ : ∃ gs, revFields t = .obj gs := by
    cases t with
    | obj fs => exact ⟨(revFieldsF fs).reverse, by simp [revFields]⟩
    | str s => exact absurd hobj (by simp [isPlainObject])
    | num n => exact absurd hobj (by simp [isPlainObject])
    | bool b => exact absurd hobj (by simp [isPlainObject])
    | null => exact absurd hobj (by simp [isPlainObject])
    | arr xs => exact absurd hobj (by simp [isPlainObject])
  have hcong : List.foldl
      (fun acc e => setAtPath acc ((fun p : List String × JValue =>
        (joinSegs p.1, p.2)) e).1 ((fun p : List String × JValue =>
        (joinSegs p.1, p.2)) e).2)
      (JValue.obj []) (fSegs (revFields t) [])
      = List.foldl (fun acc e => setSegs acc e.1 e.2)
        (JValue.obj []) (fSegs (revFields t) []) := by
    apply foldl_congr_mem
    intro acc e he
    show setAtPath acc (joinSegs e.1) e.2 = setSegs acc e.1 e.2
    have hne : e.1 ≠ [] := by
      rw [hgs] at he
      rw [show fSegs (JValue.obj gs) [] = fSegsF gs [] from by simp [fSegs]]
        at he
      rcases fSegsF_heads gs [] e he with ⟨k, ss, hk, -⟩
      rw [hk]
      simp
    unfold setAtPath
    rw [splitDot_joinSegs e.1 hne (hkeys e he)]
  rw [hcong, rebuild_val (revFields t) hrev hobjrev]
  exact structEq_rev t hwf

/-- The amended round-trip at a concrete well-formed tree. -/
theorem claim_C4_witness :
    wfTree (JValue.obj [("a", .obj [("b", .str "x")]), ("c", .str "y")])
      = true ∧
    isPlainObject (JValue.obj [("a", .obj [("b", .str "x")]), ("c", .str "y")])
      = true ∧
    structEq
      (reconstruct (flatten
        (JValue.obj [("a", .obj [("b", .str "x")]), ("c", .str "y")])))
      (JValue.obj [("a", .obj [("b", .str "x")]), ("c", .str "y")]) = true := by
  refine ⟨by decide, rfl, ?_⟩
  exact claim_C4 (JValue.obj [("a", .obj [("b", .str "x")]), ("c", .str "y")])
    (by decide) rfl

/-- A file-system operation performed by `syncLanguage` via `writeJSON`
or `fsp.rm`.  Paths are kept as (directory, file-name) pairs, mirroring
`path.join(dir, file)`; the written tree is recorded as passed to
`writeJSON` (the serialisation — `sortDeepKeys` plus `JSON.stringify` —
does not change which path is touched). -/
inductive FsOp
  | write (dir file : String) (tree : JValue)
  | rm (dir file : String)
deriving Repr

/-- The action log events of the orchestrator: the
`"[dry-run] Would write p"` line of `writeJSON` and the `"Removed p"`
line printed for a file removal (the latter is printed in wet and dry
runs alike).  Purely informational `info`/`ok`/`warn` chatter carries no
action and is not modelled. -/
inductive LogEv
  | wouldWrite (dir file : String)
  | removed (dir file : String)
deriving Repr, DecidableEq

/-- The log line a dry run prints in place of performing the given
operation. -/
def opEvent : FsOp → LogEv
  | .write d f _ => .wouldWrite d f
  | .rm d f => .removed d f

/-- The file-name component of an operation's path. -/
def opFile : FsOp → String
  | .write _ f _ => f
  | .rm _ f => f

/-- `writeJSON(p, obj, dryRun)` (part_001 lines 78-86): in dry-run it
only logs what it would write; otherwise it writes the file. -/
def writeJSONM (dir file : String) (tree : JValue) (dryRun : Bool) :
    List FsOp × List LogEv :=
  if dryRun then ([], [.wouldWrite dir file])
  else ([.write dir file tree], [])

/-- `readJSONSync`: a missing or unparsable file parses as `{}`.  The
directory contents are fixed for the whole run: `syncLanguage` never
reads a path it has previously written (the missing/extra/common file
sets are pairwise disjoint), so reading from the initial listing is
faithful. -/
def readFs (dirFs : List (String × JValue)) (file : String) : JValue :=
  (mapGet dirFs file).getD (.obj [])

/-- One `auto ? autoAns : await promptYesNo(...)` decision.  Interactive
answers are drawn from the stream `ask` at a running prompt counter;
automatic mode leaves the counter untouched (it never prompts, hence
never blocks). -/
def decision (auto : Bool) (ask : Nat → Bool) (autoAns : Bool) (ai : Nat) :
    Bool × Nat :=
  if auto then (autoAns, ai) else (ask ai, ai + 1)

/-- The key loop of `translateWholeFile` (lines 706-715): string leaves
are translated and written back at their path, other leaves are copied
verbatim. -/
def twfLoop (oracle : Oracle) (fromL toL : String) :
    List (String × JValue) → JValue → TState → JValue × TState
  | [], out, st => (out, st)
  | (k, v) :: rest, out, st =>
    match v with
    | .str s =>
      let tr := translateString oracle st s fromL toL
      twfLoop oracle fromL toL rest (setAtPath out k (.str tr.1)) tr.2
    | _ => twfLoop oracle fromL toL rest (setAtPath out k v) st

/-- `translateWholeFile` (lines 695-718): deep-copies the tree
(`JSON.parse(JSON.stringify(obj))`, structurally the same tree), then
rewrites every flat entry through the translator. -/
def translateWholeFileM (oracle : Oracle) (tree : JValue)
    (fromL toL : String) (st : TState) : JValue × TState :=
  twfLoop oracle fromL toL (flatten tree) tree st

/-- `setAtPath(obj, key, v)` where `v` came from `getAtPath` and may be
JS `undefined` (`none`, reachable only when an original key contains a
dot): a leaf written as `undefined` is dropped by `JSON.stringify`; we
record it as `null` — the difference is invisible to every property
below (paths touched, decisions taken, translator calls issued). -/
def setAtPathOpt (t : JValue) (k : String) : Option JValue → JValue
  | some v => setAtPath t k v
  | none => setAtPath t k .null

/-- Result of one common-file key loop: the two (mutated) trees, the
translator state and the prompt counter.  The key loops write no files
and remove none. -/
structure KeyRes where
  baseObj : JValue
  langObj : JValue
  tst : TState
  ai : Nat

/-- The `missingInTarget` key loop of `syncLanguage` (lines 571-606):
primary question `auto ? !preferRemove : prompt` — translate the base
value into the target (strings through the translator, other values
verbatim); follow-up question `auto ? preferRemove : prompt` — remove
the key from the base; otherwise skip. -/
def processMissingKeys (auto preferRemove : Bool) (ask : Nat → Bool)
    (oracle : Oracle) (baseL langL : String) :
    List String → JValue → JValue → TState → Nat → KeyRes
  | [], b, l, tst, ai => ⟨b, l, tst, ai⟩
  | key :: rest, b, l, tst, ai =>
    let d1 := decision auto ask (!preferRemove) ai
    if d1.1 then
      match getAtPath b key with
      | some (.str s) =>
        let tr := translateString oracle tst s baseL langL
        processMissingKeys auto preferRemove ask oracle baseL langL rest
          b (setAtPath l key (.str tr.1)) tr.2 d1.2
      | some v =>
        processMissingKeys auto preferRemove ask oracle baseL langL rest
          b (setAtPath l key v) tst d1.2
      | none =>
        processMissingKeys auto preferRemove ask oracle baseL langL rest
          b (setAtPath l key .null) tst d1.2
    else
      let d2 := decision auto ask preferRemove d1.2
      if d2.1 then
        processMissingKeys auto preferRemove ask oracle baseL langL rest
          (deleteAtPath b key) l tst d2.2
      else
        processMissingKeys auto preferRemove ask oracle baseL langL rest
          b l tst d2.2

/-- The `extraInTarget` key loop of `syncLanguage` (lines 608-643):
primary question `auto ? !preferRemove : prompt` — add the target value
to the base (strings translated target→base); follow-up
`auto ? preferRemove : prompt` — remove the key from the target;
otherwise keep. -/
def processExtraKeys (auto preferRemove : Bool) (ask : Nat → Bool)
    (oracle : Oracle) (baseL langL : String) :
    List String → JValue → JValue → TState → Nat → KeyRes
  | [], b, l, tst, ai => ⟨b, l, tst, ai⟩
  | key :: rest, b, l, tst, ai =>
    let d1 := decision auto ask (!preferRemove) ai
    if d1.1 then
      match getAtPath l key with
      | some (.str s) =>
        let tr := translateString oracle tst s langL baseL
        processExtraKeys auto preferRemove ask oracle baseL langL rest
          (setAtPath b key (.str tr.1)) l tr.2 d1.2
      | some v =>
        processExtraKeys auto preferRemove ask oracle baseL langL rest
          (setAtPath b key v) l tst d1.2
      | none =>
        processExtraKeys auto preferRemove ask oracle baseL langL rest
          (setAtPath b key .null) l tst d1.2
    else
      let d2 := decision auto ask preferRemove d1.2
      if d2.1 then
        processExtraKeys auto preferRemove ask oracle baseL langL rest
          b (deleteAtPath l key) tst d2.2
      else
        processExtraKeys auto preferRemove ask oracle baseL langL rest
          b l tst d2.2

/-- The `typeMismatches` loop of `syncLanguage` (lines 645-675):
`auto ? true` — copy the base shape into the target; else
`auto ? false` — copy the target shape into the base; otherwise leave
the mismatch unchanged. -/
def processMismatches (auto : Bool) (ask : Nat → Bool) :
    List TypeMismatch → JValue → JValue → TState → Nat → KeyRes
  | [], b, l, tst, ai => ⟨b, l, tst, ai⟩
  | tm :: rest, b, l, tst, ai =>
    let d1 := decision auto ask true ai
    if d1.1 then
      processMismatches auto ask rest b
        (setAtPathOpt l tm.path (getAtPath b tm.path)) tst d1.2
    else
      let d2 := decision auto ask false d1.2
      if d2.1 then
        processMismatches auto ask rest
          (setAtPathOpt b tm.path (getAtPath l tm.path)) l tst d2.2
      else
        processMismatches auto ask rest b l tst d2.2

/-- Result of a file-level loop: translator state, prompt counter, and
the file-system operations and action logs it emitted, in order. -/
structure LoopRes where
  tst : TState
  ai : Nat
  ops : List FsOp
  logs : List LogEv

/-- The `filesMissingInLang` loop of `syncLanguage` (lines 478-512):
create the target file by whole-file translation, or (follow-up) remove
the base file — the `fsp.rm` is guarded by `if (!dryRun)` while the
`Removed` line is printed regardless — or skip. -/
def processMissingFiles (dryRun auto preferRemove : Bool) (ask : Nat → Bool)
    (oracle : Oracle) (baseL langL baseDir langDir : String)
    (baseFs : List (String × JValue)) :
    List String → TState → Nat → LoopRes
  | [], tst, ai => ⟨tst, ai, [], []⟩
  | file :: rest, tst, ai =>
    let baseObj := readFs baseFs file
    let d1 := decision auto ask (!preferRemove) ai
    if d1.1 then
      let tr := translateWholeFileM oracle baseObj baseL langL tst
      let w := writeJSONM langDir file tr.1 dryRun
      let r := processMissingFiles dryRun auto preferRemove ask oracle baseL
        langL baseDir langDir baseFs rest tr.2 d1.2
      ⟨r.tst, r.ai, w.1 ++ r.ops, w.2 ++ r.logs⟩
    else
      let d2 := decision auto ask preferRemove d1.2
      if d2.1 then
        let ops := if dryRun then [] else [FsOp.rm baseDir file]
        let r := processMissingFiles dryRun auto preferRemove ask oracle baseL
          langL baseDir langDir baseFs rest tst d2.2
        ⟨r.tst, r.ai, ops ++ r.ops, .removed baseDir file :: r.logs⟩
      else
        processMissingFiles dryRun auto preferRemove ask oracle baseL langL
          baseDir langDir baseFs rest tst d2.2

/-- The `filesExtraInLang` loop of `syncLanguage` (lines 514-547):
add the file to the base by whole-file translation target→base, or
(follow-up) remove the target file — `fsp.rm` guarded by `if (!dryRun)`,
the `Removed` line printed regardless — or keep. -/
def processExtraFiles (dryRun auto preferRemove : Bool) (ask : Nat → Bool)
    (oracle : Oracle) (baseL langL baseDir langDir : String)
    (langFs : List (String × JValue)) :
    List String → TState → Nat → LoopRes
  | [], tst, ai => ⟨tst, ai, [], []⟩
  | file :: rest, tst, ai =>
    let langObj := readFs langFs file
    let d1 := decision auto ask (!preferRemove) ai
    if d1.1 then
      let tr := translateWholeFileM oracle langObj langL baseL tst
      let w := writeJSONM baseDir file tr.1 dryRun
      let r := processExtraFiles dryRun auto preferRemove ask oracle baseL
        langL baseDir langDir langFs rest tr.2 d1.2
      ⟨r.tst, r.ai, w.1 ++ r.ops, w.2 ++ r.logs⟩
    else
      let d2 := decision auto ask preferRemove d1.2
      if d2.1 then
        let ops := if dryRun then [] else [FsOp.rm langDir file]
        let r := processExtraFiles dryRun auto preferRemove ask oracle baseL
          langL baseDir langDir langFs rest tst d2.2
        ⟨r.tst, r.ai, ops ++ r.ops, .removed langDir file :: r.logs⟩
      else
        processExtraFiles dryRun auto preferRemove ask oracle baseL langL
          baseDir langDir langFs rest tst d2.2

/-- The in-sync test of the common-file loop (lines 560-564): all three
diff components are empty. -/
def inSyncB (baseFs langFs : List (String × JValue)) (file : String) : Bool :=
  let d := diffKeys (readFs baseFs file) (readFs langFs file)
  d.missingInTarget.length == 0 && d.extraInTarget.length == 0 &&
    d.typeMismatches.length == 0

/-- The `commonFiles` loop of `syncLanguage` (lines 549-679): parse both
files, diff them, `continue` when in sync, otherwise run the three key
loops and persist both trees. -/
def processCommonFiles (dryRun auto preferRemove : Bool) (ask : Nat → Bool)
    (oracle : Oracle) (baseL langL baseDir langDir : String)
    (baseFs langFs : List (String × JValue)) :
    List String → TState → Nat → LoopRes
  | [], tst, ai => ⟨tst, ai, [], []⟩
  | file :: rest, tst, ai =>
    let baseObj := readFs baseFs file
    let langObj := readFs langFs file
    let d := diffKeys baseObj langObj
    if d.missingInTarget.length == 0 && d.extraInTarget.length == 0 &&
        d.typeMismatches.length == 0 then
      processCommonFiles dryRun auto preferRemove ask oracle baseL langL
        baseDir langDir baseFs langFs rest tst ai
    else
      let r1 := processMissingKeys auto preferRemove ask oracle baseL langL
        d.missingInTarget baseObj langObj tst ai
      let r2 := processExtraKeys auto preferRemove ask oracle baseL langL
        d.extraInTarget r1.baseObj r1.langObj r1.tst r1.ai
      let r3 := processMismatches auto ask d.typeMismatches r2.baseObj
        r2.langObj r2.tst r2.ai
      let w1 := writeJSONM baseDir file r3.baseObj dryRun
      let w2 := writeJSONM langDir file r3.langObj dryRun
      let r := processCommonFiles dryRun auto preferRemove ask oracle baseL
        langL baseDir langDir baseFs langFs rest r3.tst r3.ai
      ⟨r.tst, r.ai, w1.1 ++ w2.1 ++ r.ops, w1.2 ++ w2.2 ++ r.logs⟩

/-- `syncLanguage` (lines 442-680): partition the two directory listings
into missing / extra / common files and run the three file loops in
order.  `listJsonFiles` lists each name once and `new Set` keeps that,
so the listings are the key lists of the two directory maps; the prompt
counter starts at 0. -/
def syncLanguageM (dryRun auto preferRemove : Bool) (ask : Nat → Bool)
    (oracle : Oracle) (baseL langL baseDir langDir : String)
    (baseFs langFs : List (String × JValue)) (tst : TState) : LoopRes :=
  let baseFiles := keysOf baseFs
  let langFiles := keysOf langFs
  let missingF := baseFiles.filter (fun f => !langFiles.contains f)
  let extraF := langFiles.filter (fun f => !baseFiles.contains f)
  let commonF := baseFiles.filter (fun f => langFiles.contains f)
  let r1 := processMissingFiles dryRun auto preferRemove ask oracle baseL
    langL baseDir langDir baseFs missingF tst 0
  let r2 := processExtraFiles dryRun auto preferRemove ask oracle baseL langL
    baseDir langDir langFs extraF r1.tst r1.ai
  let r3 := processCommonFiles dryRun auto preferRemove ask oracle baseL
    langL baseDir langDir baseFs langFs commonF r2.tst r2.ai
  ⟨r3.tst, r3.ai, r1.ops ++ r2.ops ++ r3.ops, r1.logs ++ r2.logs ++ r3.logs⟩

/-- Dry-run / wet-run correspondence for one loop: same translator state
and prompt counter, no operations in the dry run, and the dry run's
action log lists exactly the operations the wet run performs. -/
def DryWet (d w : LoopRes) : Prop :=
  d.tst = w.tst ∧ d.ai = w.ai ∧ d.ops = [] ∧ d.logs = w.ops.map opEvent

theorem mf_dry_wet (a p : Bool) (ask : Nat → Bool) (oracle : Oracle)
    (bL lL bd ld : String) (baseFs : List (String × JValue)) :
    (files : List String) → (tst : TState) → (ai : Nat) →
    DryWet
      (processMissingFiles true a p ask oracle bL lL bd ld baseFs files tst ai)
      (processMissingFiles false a p ask oracle bL lL bd ld baseFs files tst ai)
  | [], tst, ai => ⟨rfl, rfl, rfl, rfl⟩
  | file :: rest, tst, ai => by
    simp only [processMissingFiles]
    cases h1 : (decision a ask (!p) ai).1 with
    | true =>
      obtain ⟨e1, e2, e3, e4⟩ := mf_dry_wet a p ask oracle bL lL bd ld baseFs
        rest (translateWholeFileM oracle (readFs baseFs file) bL lL tst).2
        (decision a ask (!p) ai).2
      simp only [h1, if_true, writeJSONM, if_false]
      exact ⟨e1, e2, by simp [e3], by simp [e4, opEvent]⟩
    | false =>
      cases h2 : (decision a ask p (decision a ask (!p) ai).2).1 with
      | true =>
        obtain ⟨e1, e2, e3, e4⟩ := mf_dry_wet a p ask oracle bL lL bd ld baseFs
          rest tst (decision a ask p (decision a ask (!p) ai).2).2
        simp only [h1, h2, if_true, if_false]
        exact ⟨e1, e2, by simp [e3], by simp [e4, opEvent]⟩
      | false =>
        obtain ⟨e1, e2, e3, e4⟩ := mf_dry_wet a p ask oracle bL lL bd ld baseFs
          rest tst (decision a ask p (decision a ask (!p) ai).2).2
        exact ⟨e1, e2, e3, e4⟩

theorem ef_dry_wet (a p : Bool) (ask : Nat → Bool) (oracle : Oracle)
    (bL lL bd ld : String) (langFs : List (String × JValue)) :
    (files : List String) → (tst : TState) → (ai : Nat) →
    DryWet
      (processExtraFiles true a p ask oracle bL lL bd ld langFs files tst ai)
      (processExtraFiles false a p ask oracle bL lL bd ld langFs files tst ai)
  | [], tst, ai => ⟨rfl, rfl, rfl, rfl⟩
  | file :: rest, tst, ai => by
    simp only [processExtraFiles]
    cases h1 : (decision a ask (!p) ai).1 with
    | true =>
      obtain ⟨e1, e2, e3, e4⟩ := ef_dry_wet a p ask oracle bL lL bd ld langFs
        rest (translateWholeFileM oracle (readFs langFs file) lL bL tst).2
        (decision a ask (!p) ai).2
      simp only [h1, if_true, writeJSONM, if_false]
      exact ⟨e1, e2, by simp [e3], by simp [e4, opEvent]⟩
    | false =>
      cases h2 : (decision a ask p (decision a ask (!p) ai).2).1 with
      | true =>
        obtain ⟨e1, e2, e3, e4⟩ := ef_dry_wet a p ask oracle bL lL bd ld langFs
          rest tst (decision a ask p (decision a ask (!p) ai).2).2
        simp only [h1, h2, if_true, if_false]
        exact ⟨e1, e2, by simp [e3], by simp [e4, opEvent]⟩
      | false =>
        obtain ⟨e1, e2, e3, e4⟩ := ef_dry_wet a p ask oracle bL lL bd ld langFs
          rest tst (decision a ask p (decision a ask (!p) ai).2).2
        exact ⟨e1, e2, e3, e4⟩

theorem cf_dry_wet (a p : Bool) (ask : Nat → Bool) (oracle : Oracle)
    (bL lL bd ld : String) (baseFs langFs : List (String × JValue)) :
    (files : List String) → (tst : TState) → (ai : Nat) →
    DryWet
      (processCommonFiles true a p ask oracle bL lL bd ld baseFs langFs
        files tst ai)
      (processCommonFiles false a p ask oracle bL lL bd ld baseFs langFs
        files tst ai)
  | [], tst, ai => ⟨rfl, rfl, rfl, rfl⟩
  | file :: rest, tst, ai => by
    simp only [processCommonFiles]
    cases hs : ((diffKeys (readFs baseFs file) (readFs langFs file)).missingInTarget.length == 0 &&
        (diffKeys (readFs baseFs file) (readFs langFs file)).extraInTarget.length == 0 &&
        (diffKeys (readFs baseFs file) (readFs langFs file)).typeMismatches.length == 0) with
    | true =>
      obtain ⟨e1, e2, e3, e4⟩ := cf_dry_wet a p ask oracle bL lL bd ld baseFs
        langFs rest tst ai
      simp only [hs, if_true]
      exact ⟨e1, e2, e3, e4⟩
    | false =>
      obtain ⟨e1, e2, e3, e4⟩ := cf_dry_wet a p ask oracle bL lL bd ld baseFs
        langFs rest
        (processMismatches a ask
          (diffKeys (readFs baseFs file) (readFs langFs file)).typeMismatches
          (processExtraKeys a p ask oracle bL lL
            (diffKeys (readFs baseFs file) (readFs langFs file)).extraInTarget
            (processMissingKeys a p ask oracle bL lL
              (diffKeys (readFs baseFs file) (readFs langFs file)).missingInTarget
              (readFs baseFs file) (readFs langFs file) tst ai).baseObj
            (processMissingKeys a p ask oracle bL lL
              (diffKeys (readFs baseFs file) (readFs langFs file)).missingInTarget
              (readFs baseFs file) (readFs langFs file) tst ai).langObj
            (processMissingKeys a p ask oracle bL lL
              (diffKeys (readFs baseFs file) (readFs langFs file)).missingInTarget
              (readFs baseFs file) (readFs langFs file) tst ai).tst
            (processMissingKeys a p ask oracle bL lL
              (diffKeys (readFs baseFs file) (readFs langFs file)).missingInTarget
              (readFs baseFs file) (readFs langFs file) tst ai).ai).baseObj
          (processExtraKeys a p ask oracle bL lL
            (diffKeys (readFs baseFs file) (readFs langFs file)).extraInTarget
            (processMissingKeys a p ask oracle bL lL
              (diffKeys (readFs baseFs file) (readFs langFs file)).missingInTarget
              (readFs baseFs file) (readFs langFs file) tst ai).baseObj
            (processMissingKeys a p ask oracle bL lL
              (diffKeys (readFs baseFs file) (readFs langFs file)).missingInTarget
              (readFs baseFs file) (readFs langFs file) tst ai).langObj
            (processMissingKeys a p ask oracle bL lL
              (diffKeys (readFs baseFs file) (readFs langFs file)).missingInTarget
              (readFs baseFs file) (readFs langFs file) tst ai).tst
            (processMissingKeys a p ask oracle bL lL
              (diffKeys (readFs baseFs file) (readFs langFs file)).missingInTarget
              (readFs baseFs file) (readFs langFs file) tst ai).ai).langObj
          (processExtraKeys a p ask oracle bL lL
            (diffKeys (readFs baseFs file) (readFs langFs file)).extraInTarget
            (processMissingKeys a p ask oracle bL lL
              (diffKeys (readFs baseFs file) (readFs langFs file)).missingInTarget
              (readFs baseFs file) (readFs langFs file) tst ai).baseObj
            (processMissingKeys a p ask oracle bL lL
              (diffKeys (readFs baseFs file) (readFs langFs file)).missingInTarget
              (readFs baseFs file) (readFs langFs file) tst ai).langObj
            (processMissingKeys a p ask oracle bL lL
              (diffKeys (readFs baseFs file) (readFs langFs file)).missingInTarget
              (readFs baseFs file) (readFs langFs file) tst ai).tst
            (processMissingKeys a p ask oracle bL lL
              (diffKeys (readFs baseFs file) (readFs langFs file)).missingInTarget
              (readFs baseFs file) (readFs langFs file) tst ai).ai).tst
          (processExtraKeys a p ask oracle bL lL
            (diffKeys (readFs baseFs file) (readFs langFs file)).extraInTarget
            (processMissingKeys a p ask oracle bL lL
              (diffKeys (readFs baseFs file) (readFs langFs file)).missingInTarget
              (readFs baseFs file) (readFs langFs file) tst ai).baseObj
            (processMissingKeys a p ask oracle bL lL
              (diffKeys (readFs baseFs file) (readFs langFs file)).missingInTarget
              (readFs baseFs file) (readFs langFs file) tst ai).langObj
            (processMissingKeys a p ask oracle bL lL
              (diffKeys (readFs baseFs file) (readFs langFs file)).missingInTarget
              (readFs baseFs file) (readFs langFs file) tst ai).tst
            (processMissingKeys a p ask oracle bL lL
              (diffKeys (readFs baseFs file) (readFs langFs file)).missingInTarget
              (readFs baseFs file) (readFs langFs file) tst ai).ai).ai).tst
        (processMismatches a ask
          (diffKeys (readFs baseFs file) (readFs langFs file)).typeMismatches
          (processExtraKeys a p ask oracle bL lL
            (diffKeys (readFs baseFs file) (readFs langFs file)).extraInTarget
            (processMissingKeys a p ask oracle bL lL
              (diffKeys (readFs baseFs file) (readFs langFs file)).missingInTarget
              (readFs baseFs file) (readFs langFs file) tst ai).baseObj
            (processMissingKeys a p ask oracle bL lL
              (diffKeys (readFs baseFs file) (readFs langFs file)).missingInTarget
              (readFs baseFs file) (readFs langFs file) tst ai).langObj
            (processMissingKeys a p ask oracle bL lL
              (diffKeys (readFs baseFs file) (readFs langFs file)).missingInTarget
              (readFs baseFs file) (readFs langFs file) tst ai).tst
            (processMissingKeys a p ask oracle bL lL
              (diffKeys (readFs baseFs file) (readFs langFs file)).missingInTarget
              (readFs baseFs file) (readFs langFs file) tst ai).ai).baseObj
          (processExtraKeys a p ask oracle bL lL
            (diffKeys (readFs baseFs file) (readFs langFs file)).extraInTarget
            (processMissingKeys a p ask oracle bL lL
              (diffKeys (readFs baseFs file) (readFs langFs file)).missingInTarget
              (readFs baseFs file) (readFs langFs file) tst ai).baseObj
            (processMissingKeys a p ask oracle bL lL
              (diffKeys (readFs baseFs file) (readFs langFs file)).missingInTarget
              (readFs baseFs file) (readFs langFs file) tst ai).langObj
            (processMissingKeys a p ask oracle bL lL
              (diffKeys (readFs baseFs file) (readFs langFs file)).missingInTarget
              (readFs baseFs file) (readFs langFs file) tst ai).tst
            (processMissingKeys a p ask oracle bL lL
              (diffKeys (readFs baseFs file) (readFs langFs file)).missingInTarget
              (readFs baseFs file) (readFs langFs file) tst ai).ai).langObj
          (processExtraKeys a p ask oracle bL lL
            (diffKeys (readFs baseFs file) (readFs langFs file)).extraInTarget
            (processMissingKeys a p ask oracle bL lL
              (diffKeys (readFs baseFs file) (readFs langFs file)).missingInTarget
              (readFs baseFs file) (readFs langFs file) tst ai).baseObj
            (processMissingKeys a p ask oracle bL lL
              (diffKeys (readFs baseFs file) (readFs langFs file)).missingInTarget
              (readFs baseFs file) (readFs langFs file) tst ai).langObj
            (processMissingKeys a p ask oracle bL lL
              (diffKeys (readFs baseFs file) (readFs langFs file)).missingInTarget
              (readFs baseFs file) (readFs langFs file) tst ai).tst
            (processMissingKeys a p ask oracle bL lL
              (diffKeys (readFs baseFs file) (readFs langFs file)).missingInTarget
              (readFs baseFs file) (readFs langFs file) tst ai).ai).tst
          (processExtraKeys a p ask oracle bL lL
            (diffKeys (readFs baseFs file) (readFs langFs file)).extraInTarget
            (processMissingKeys a p ask oracle bL lL
              (diffKeys (readFs baseFs file) (readFs langFs file)).missingInTarget
              (readFs baseFs file) (readFs langFs file) tst ai).baseObj
            (processMissingKeys a p ask oracle bL lL
              (diffKeys (readFs baseFs file) (readFs langFs file)).missingInTarget
              (readFs baseFs file) (readFs langFs file) tst ai).langObj
            (processMissingKeys a p ask oracle bL lL
              (diffKeys (readFs baseFs file) (readFs langFs file)).missingInTarget
              (readFs baseFs file) (readFs langFs file) tst ai).tst
            (processMissingKeys a p ask oracle bL lL
              (diffKeys (readFs baseFs file) (readFs langFs file)).missingInTarget
              (readFs baseFs file) (readFs langFs file) tst ai).ai).ai).ai
      simp only [hs, if_false, writeJSONM, if_true]
      exact ⟨e1, e2, by simp [e3], by simp [e4, opEvent]⟩

/-- C8: with `dryRun = true` the orchestrator performs no file-system
operation at all; its action log lists exactly (in order) the
operations the same run with `dryRun = false` would perform — a
`Would write` line for each file persist, a `Removed` line for each file
removal; and the translator still runs: its final state (cache, remote
call count, warnings) is identical to the wet run's. -/
theorem claim_C8 (auto preferRemove : Bool) (ask : Nat → Bool)
    (oracle : Oracle) (baseL langL baseDir langDir : String)
    (baseFs langFs : List (String × JValue)) (tst : TState) :
    (syncLanguageM true auto preferRemove ask oracle baseL langL baseDir
      langDir baseFs langFs tst).ops = [] ∧
    (syncLanguageM true auto preferRemove ask oracle baseL langL baseDir
      langDir baseFs langFs tst).logs
      = (syncLanguageM false auto preferRemove ask oracle baseL langL baseDir
          langDir baseFs langFs tst).ops.map opEvent ∧
    (syncLanguageM true auto preferRemove ask oracle baseL langL baseDir
      langDir baseFs langFs tst).tst
      = (syncLanguageM false auto preferRemove ask oracle baseL langL baseDir
          langDir baseFs langFs tst).tst := by
  simp only [syncLanguageM]
  obtain ⟨m1, m2, m3, m4⟩ := mf_dry_wet auto preferRemove ask oracle baseL
    langL baseDir langDir baseFs
    ((keysOf baseFs).filter (fun f => !(keysOf langFs).contains f)) tst 0
  rw [m1, m2]
  obtain ⟨x1, x2, x3, x4⟩ := ef_dry_wet auto preferRemove ask oracle baseL
    langL baseDir langDir langFs
    ((keysOf langFs).filter (fun f => !(keysOf baseFs).contains f))
    (processMissingFiles false auto preferRemove ask oracle baseL langL
      baseDir langDir baseFs
      ((keysOf baseFs).filter (fun f => !(keysOf langFs).contains f)) tst 0).tst
    (processMissingFiles false auto preferRemove ask oracle baseL langL
      baseDir langDir baseFs
      ((keysOf baseFs).filter (fun f => !(keysOf langFs).contains f)) tst 0).ai
  rw [x1, x2]
  obtain ⟨c1, c2, c3, c4⟩ := cf_dry_wet auto preferRemove ask oracle baseL
    langL baseDir langDir baseFs langFs
    ((keysOf baseFs).filter (fun f => (keysOf langFs).contains f))
    (processExtraFiles false auto preferRemove ask oracle baseL langL
      baseDir langDir langFs
      ((keysOf langFs).filter (fun f => !(keysOf baseFs).contains f))
      (processMissingFiles false auto preferRemove ask oracle baseL langL
        baseDir langDir baseFs
        ((keysOf baseFs).filter (fun f => !(keysOf langFs).contains f))
        tst 0).tst
      (processMissingFiles false auto preferRemove ask oracle baseL langL
        baseDir langDir baseFs
        ((keysOf baseFs).filter (fun f => !(keysOf langFs).contains f))
        tst 0).ai).tst
    (processExtraFiles false auto preferRemove ask oracle baseL langL
      baseDir langDir langFs
      ((keysOf langFs).filter (fun f => !(keysOf baseFs).contains f))
      (processMissingFiles false auto preferRemove ask oracle baseL langL
        baseDir langDir baseFs
        ((keysOf baseFs).filter (fun f => !(keysOf langFs).contains f))
        tst 0).tst
      (processMissingFiles false auto preferRemove ask oracle baseL langL
        baseDir langDir baseFs
        ((keysOf baseFs).filter (fun f => !(keysOf langFs).contains f))
        tst 0).ai).ai
  refine ⟨?_, ?_, ?_⟩
  · rw [m3, x3, c3]
    rfl
  · rw [m4, x4, c4]
    simp [List.map_append]
  · exact c1

theorem mf_ops_files (d a p : Bool) (ask : Nat → Bool) (oracle : Oracle)
    (bL lL bd ld : String) (baseFs : List (String × JValue)) :
    (files : List String) → (tst : TState) → (ai : Nat) →
    ∀ op ∈ (processMissingFiles d a p ask oracle bL lL bd ld baseFs
      files tst ai).ops, opFile op ∈ files
  | [], tst, ai => by
    intro op hop
    simp [processMissingFiles] at hop
  | file :: rest, tst, ai => by
    intro op hop
    simp only [processMissingFiles] at hop
    by_cases h1 : (decision a ask (!p) ai).1 = true
    · rw [if_pos h1] at hop
      simp only [writeJSONM] at hop
      rw [List.mem_append] at hop
      rcases hop with hop | hop
      · by_cases hd : d = true
        · rw [if_pos hd] at hop
          simp at hop
        · rw [if_neg hd] at hop
          simp only [List.mem_singleton] at hop
          subst hop
          exact List.mem_cons_self _ _
      · exact List.mem_cons_of_mem _
          (mf_ops_files d a p ask oracle bL lL bd ld baseFs rest _ _ op hop)
    · rw [if_neg h1] at hop
      by_cases h2 : (decision a ask p (decision a ask (!p) ai).2).1 = true
      · rw [if_pos h2] at hop
        simp only at hop
        rw [List.mem_append] at hop
        rcases hop with hop | hop
        · by_cases hd : d = true
          · rw [if_pos hd] at hop
            simp at hop
          · rw [if_neg hd] at hop
            simp only [List.mem_singleton] at hop
            subst hop
            exact List.mem_cons_self _ _
        · exact List.mem_cons_of_mem _
            (mf_ops_files d a p ask oracle bL lL bd ld baseFs rest _ _ op hop)
      · rw [if_neg h2] at hop
        exact List.mem_cons_of_mem _
          (mf_ops_files d a p ask oracle bL lL bd ld baseFs rest _ _ op hop)

theorem ef_ops_files (d a p : Bool) (ask : Nat → Bool) (oracle : Oracle)
    (bL lL bd ld : String) (langFs : List (String × JValue)) :
    (files : List String) → (tst : TState) → (ai : Nat) →
    ∀ op ∈ (processExtraFiles d a p ask oracle bL lL bd ld langFs
      files tst ai).ops, opFile op ∈ files
  | [], tst, ai => by
    intro op hop
    simp [processExtraFiles] at hop
  | file :: rest, tst, ai => by
    intro op hop
    simp only [processExtraFiles] at hop
    by_cases h1 : (decision a ask (!p) ai).1 = true
    · rw [if_pos h1] at hop
      simp only [writeJSONM] at hop
      rw [List.mem_append] at hop
      rcases hop with hop | hop
      · by_cases hd : d = true
        · rw [if_pos hd] at hop
          simp at hop
        · rw [if_neg hd] at hop
          simp only [List.mem_singleton] at hop
          subst hop
          exact List.mem_cons_self _ _
      · exact List.mem_cons_of_mem _
          (ef_ops_files d a p ask oracle bL lL bd ld langFs rest _ _ op hop)
    · rw [if_neg h1] at hop
      by_cases h2 : (decision a ask p (decision a ask (!p) ai).2).1 = true
      · rw [if_pos h2] at hop
        simp only at hop
        rw [List.mem_append] at hop
        rcases hop with hop | hop
        · by_cases hd : d = true
          · rw [if_pos hd] at hop
            simp at hop
          · rw [if_neg hd] at hop
            simp only [List.mem_singleton] at hop
            subst hop
            exact List.mem_cons_self _ _
        · exact List.mem_cons_of_mem _
            (ef_ops_files d a p ask oracle bL lL bd ld langFs rest _ _ op hop)
      · rw [if_neg h2] at hop
        exact List.mem_cons_of_mem _
          (ef_ops_files d a p ask oracle bL lL bd ld langFs rest _ _ op hop)

theorem cf_ops_files (d a p : Bool) (ask : Nat → Bool) (oracle : Oracle)
    (bL lL bd ld : String) (baseFs langFs : List (String × JValue)) :
    (files : List String) → (tst : TState) → (ai : Nat) →
    ∀ op ∈ (processCommonFiles d a p ask oracle bL lL bd ld baseFs langFs
      files tst ai).ops,
      opFile op ∈ files ∧ inSyncB baseFs langFs (opFile op) = false
  | [], tst, ai => by
    intro op hop
    simp [processCommonFiles] at hop
  | file :: rest, tst, ai => by
    intro op hop
    simp only [processCommonFiles] at hop
    by_cases hs : ((diffKeys (readFs baseFs file) (readFs langFs file)).missingInTarget.length == 0 &&
        (diffKeys (readFs baseFs file) (readFs langFs file)).extraInTarget.length == 0 &&
        (diffKeys (readFs baseFs file) (readFs langFs file)).typeMismatches.length == 0) = true
    · rw [if_pos hs] at hop
      obtain ⟨hmem, hns⟩ := cf_ops_files d a p ask oracle bL lL bd ld baseFs
        langFs rest _ _ op hop
      exact ⟨List.mem_cons_of_mem _ hmem, hns⟩
    · rw [if_neg hs] at hop
      simp only [writeJSONM] at hop
      rw [List.mem_append] at hop
      rcases hop with hop | hop
      · rw [List.mem_append] at hop
        have hfile : opFile op = file := by
          rcases hop with hop | hop
          · by_cases hd : d = true
            · rw [if_pos hd] at hop
              simp at hop
            · rw [if_neg hd] at hop
              simp only [List.mem_singleton] at hop
              subst hop
              rfl
          · by_cases hd : d = true
            · rw [if_pos hd] at hop
              simp at hop
            · rw [if_neg hd] at hop
              simp only [List.mem_singleton] at hop
              subst hop
              rfl
        refine ⟨hfile ▸ List.mem_cons_self _ _, ?_⟩
        rw [hfile]
        rw [show inSyncB baseFs langFs file
            = ((diffKeys (readFs baseFs file) (readFs langFs file)).missingInTarget.length == 0 &&
              (diffKeys (readFs baseFs file) (readFs langFs file)).extraInTarget.length == 0 &&
              (diffKeys (readFs baseFs file) (readFs langFs file)).typeMismatches.length == 0) from rfl]
        exact Bool.eq_false_iff.mpr (fun hc => hs hc)
      · obtain ⟨hmem, hns⟩ := cf_ops_files d a p ask oracle bL lL bd ld baseFs
          langFs rest _ _ op hop
        exact ⟨List.mem_cons_of_mem _ hmem, hns⟩

/-- C10: a file present in both locale directories whose two parsed
trees diff to empty `missingInTarget`, `extraInTarget` and
`typeMismatches` is never written (nor removed) by the orchestrator —
the in-sync `continue` skips persistence entirely, for wet and dry runs
alike. -/
theorem claim_C10 (dryRun auto preferRemove : Bool) (ask : Nat → Bool)
    (oracle : Oracle) (baseL langL baseDir langDir : String)
    (baseFs langFs : List (String × JValue)) (tst : TState) (f : String)
    (hb : f ∈ keysOf baseFs) (hl : f ∈ keysOf langFs)
    (hdiff : diffKeys (readFs baseFs f) (readFs langFs f) = ⟨[], [], []⟩) :
    ∀ op ∈ (syncLanguageM dryRun auto preferRemove ask oracle baseL langL
      baseDir langDir baseFs langFs tst).ops, opFile op ≠ f := by
  intro op hop hfe
  simp only [syncLanguageM] at hop
  rw [List.mem_append] at hop
  rcases hop with hop | hop
  · rw [List.mem_append] at hop
    rcases hop with hop | hop
    · have hmem := mf_ops_files dryRun auto preferRemove ask oracle baseL
        langL baseDir langDir baseFs _ _ _ op hop
      rw [hfe] at hmem
      rcases List.mem_filter.mp hmem with ⟨-, hcond⟩
      rw [Bool.not_eq_true'] at hcond
      exact absurd hl (by simpa using hcond)
    · have hmem := ef_ops_files dryRun auto preferRemove ask oracle baseL
        langL baseDir langDir langFs _ _ _ op hop
      rw [hfe] at hmem
      rcases List.mem_filter.mp hmem with ⟨-, hcond⟩
      rw [Bool.not_eq_true'] at hcond
      exact absurd hb (by simpa using hcond)
  · have hns := (cf_ops_files dryRun auto preferRemove ask oracle baseL
      langL baseDir langDir baseFs langFs _ _ _ op hop).2
    rw [hfe] at hns
    rw [show inSyncB baseFs langFs f = true from by
      simp [inSyncB, hdiff]] at hns
    simp at hns

/-- The in-sync skip at a concrete run: one common file with identical
one-key trees on both sides is never written or removed. -/
theorem claim_C10_witness :
    ("a.json" ∈ keysOf [("a.json", JValue.obj [("x", .str "1")])]) ∧
    diffKeys (readFs [("a.json", JValue.obj [("x", .str "1")])] "a.json")
        (readFs [("a.json", JValue.obj [("x", .str "1")])] "a.json")
      = ⟨[], [], []⟩ ∧
    ∀ op ∈ (syncLanguageM false true false (fun _ => true) (fun _ => "")
      "en" "de" "root/en" "root/de"
      [("a.json", JValue.obj [("x", .str "1")])]
      [("a.json", JValue.obj [("x", .str "1")])] ⟨[], 0, []⟩).ops,
      opFile op ≠ "a.json" := by
  have hdiff : diffKeys
      (readFs [("a.json", JValue.obj [("x", .str "1")])] "a.json")
      (readFs [("a.json", JValue.obj [("x", .str "1")])] "a.json")
      = ⟨[], [], []⟩ := by
    simp [readFs, mapGet, diffKeys, flatten, flattenLoop, joinPath, mapSet,
      mapHas, mismatchAt, typeofStr, diffShape]
  refine ⟨by decide, hdiff, ?_⟩
  exact claim_C10 false true false (fun _ => true) (fun _ => "") "en" "de"
    "root/en" "root/de" [("a.json", JValue.obj [("x", .str "1")])]
    [("a.json", JValue.obj [("x", .str "1")])] ⟨[], 0, []⟩ "a.json"
    (by decide) (by decide) hdiff

/-- Spec-twin (follows the spec's words, for comparison with the code's
`processMissingKeys`): in automatic mode the primary
translate-into-target question is answered with `!preferRemove`, the
follow-up remove-from-base question with `preferRemove`, and no prompt
is ever issued — the answer counter never moves. -/
def specAutoMissingKeys (oracle : Oracle) (preferRemove : Bool)
    (baseL langL : String) :
    List String → JValue → JValue → TState → Nat → KeyRes
  | [], b, l, tst, ai => ⟨b, l, tst, ai⟩
  | key :: rest, b, l, tst, ai =>
    if !preferRemove then
      match getAtPath b key with
      | some (.str s) =>
        let tr := translateString oracle tst s baseL langL
        specAutoMissingKeys oracle preferRemove baseL langL rest
          b (setAtPath l key (.str tr.1)) tr.2 ai
      | some v =>
        specAutoMissingKeys oracle preferRemove baseL langL rest
          b (setAtPath l key v) tst ai
      | none =>
        specAutoMissingKeys oracle preferRemove baseL langL rest
          b (setAtPath l key .null) tst ai
    else if preferRemove then
      specAutoMissingKeys oracle preferRemove baseL langL rest
        (deleteAtPath b key) l tst ai
    else
      specAutoMissingKeys oracle preferRemove baseL langL rest b l tst ai

/-- Spec-twin for the extra-key loop: primary add-to-base question
answered with `!preferRemove`, follow-up remove-from-target question
with `preferRemove`, never prompting. -/
def specAutoExtraKeys (oracle : Oracle) (preferRemove : Bool)
    (baseL langL : String) :
    List String → JValue → JValue → TState → Nat → KeyRes
  | [], b, l, tst, ai => ⟨b, l, tst, ai⟩
  | key :: rest, b, l, tst, ai =>
    if !preferRemove then
      match getAtPath l key with
      | some (.str s) =>
        let tr := translateString oracle tst s langL baseL
        specAutoExtraKeys oracle preferRemove baseL langL rest
          (setAtPath b key (.str tr.1)) l tr.2 ai
      | some v =>
        specAutoExtraKeys oracle preferRemove baseL langL rest
          (setAtPath b key v) l tst ai
      | none =>
        specAutoExtraKeys oracle preferRemove baseL langL rest
          (setAtPath b key .null) l tst ai
    else if preferRemove then
      specAutoExtraKeys oracle preferRemove baseL langL rest
        b (deleteAtPath l key) tst ai
    else
      specAutoExtraKeys oracle preferRemove baseL langL rest b l tst ai

theorem pmk_auto_spec (p : Bool) (ask : Nat → Bool) (oracle : Oracle)
    (bL lL : String) :
    (keys : List String) → (b l : JValue) → (tst : TState) → (ai : Nat) →
    processMissingKeys true p ask oracle bL lL keys b l tst ai
      = specAutoMissingKeys oracle p bL lL keys b l tst ai
  | [], b, l, tst, ai => rfl
  | key :: rest, b, l, tst, ai => by
    cases p with
    | false =>
      simp only [processMissingKeys, specAutoMissingKeys]
      cases hg : getAtPath b key with
      | none =>
        exact pmk_auto_spec false ask oracle bL lL rest
          b (setAtPath l key .null) tst ai
      | some v =>
        cases v with
        | str s =>
          exact pmk_auto_spec false ask oracle bL lL rest
            b (setAtPath l key (.str (translateString oracle tst s bL lL).1))
            (translateString oracle tst s bL lL).2 ai
        | num n =>
          exact pmk_auto_spec false ask oracle bL lL rest
            b (setAtPath l key (.num n)) tst ai
        | bool x =>
          exact pmk_auto_spec false ask oracle bL lL rest
            b (setAtPath l key (.bool x)) tst ai
        | null =>
          exact pmk_auto_spec false ask oracle bL lL rest
            b (setAtPath l key .null) tst ai
        | arr xs =>
          exact pmk_auto_spec false ask oracle bL lL rest
            b (setAtPath l key (.arr xs)) tst ai
        | obj fs =>
          exact pmk_auto_spec false ask oracle bL lL rest
            b (setAtPath l key (.obj fs)) tst ai
    | true =>
      simp only [processMissingKeys, specAutoMissingKeys]
      exact pmk_auto_spec true ask oracle bL lL rest
        (deleteAtPath b key) l tst ai

theorem pek_auto_spec (p : Bool) (ask : Nat → Bool) (oracle : Oracle)
    (bL lL : String) :
    (keys : List String) → (b l : JValue) → (tst : TState) → (ai : Nat) →
    processExtraKeys true p ask oracle bL lL keys b l tst ai
      = specAutoExtraKeys oracle p bL lL keys b l tst ai
  | [], b, l, tst, ai => rfl
  | key :: rest, b, l, tst, ai => by
    cases p with
    | false =>
      simp only [processExtraKeys, specAutoExtraKeys]
      cases hg : getAtPath l key with
      | none =>
        exact pek_auto_spec false ask oracle bL lL rest
          (setAtPath b key .null) l tst ai
      | some v =>
        cases v with
        | str s =>
          exact pek_auto_spec false ask oracle bL lL rest
            (setAtPath b key (.str (translateString oracle tst s lL bL).1)) l
            (translateString oracle tst s lL bL).2 ai
        | num n =>
          exact pek_auto_spec false ask oracle bL lL rest
            (setAtPath b key (.num n)) l tst ai
        | bool x =>
          exact pek_auto_spec false ask oracle bL lL rest
            (setAtPath b key (.bool x)) l tst ai
        | null =>
          exact pek_auto_spec false ask oracle bL lL rest
            (setAtPath b key .null) l tst ai
        | arr xs =>
          exact pek_auto_spec false ask oracle bL lL rest
            (setAtPath b key (.arr xs)) l tst ai
        | obj fs =>
          exact pek_auto_spec false ask oracle bL lL rest
            (setAtPath b key (.obj fs)) l tst ai
    | true =>
      simp only [processExtraKeys, specAutoExtraKeys]
      exact pek_auto_spec true ask oracle bL lL rest
        b (deleteAtPath l key) tst ai

/-- C6: in automatic mode the key-resolution loops of `syncLanguage`
coincide, for every prompt stream (no prompt is ever issued, so the run
never blocks), with the spec's stated policy — primary add/translate
question answered with `!preferRemove`, follow-up remove question with
`preferRemove`; and in the end-to-end scenario base `{"x":"1"}`, target
`{"x":"1","y":"2"}` with `preferRemove = true`, the extra key `y` is
removed from the target (both files are rewritten with `{"x":"1"}`),
nothing is added to the base, and the translator is never invoked. -/
theorem claim_C6 :
    (∀ (preferRemove : Bool) (ask : Nat → Bool) (oracle : Oracle)
      (baseL langL : String) (keys : List String) (b l : JValue)
      (tst : TState) (ai : Nat),
      processMissingKeys true preferRemove ask oracle baseL langL
        keys b l tst ai
        = specAutoMissingKeys oracle preferRemove baseL langL
            keys b l tst ai) ∧
    (∀ (preferRemove : Bool) (ask : Nat → Bool) (oracle : Oracle)
      (baseL langL : String) (keys : List String) (b l : JValue)
      (tst : TState) (ai : Nat),
      processExtraKeys true preferRemove ask oracle baseL langL
        keys b l tst ai
        = specAutoExtraKeys oracle preferRemove baseL langL
            keys b l tst ai) ∧
    (∀ (ask : Nat → Bool) (oracle : Oracle),
      (syncLanguageM false true true ask oracle "en" "de" "root/en" "root/de"
        [("common.json", JValue.obj [("x", .str "1")])]
        [("common.json", JValue.obj [("x", .str "1"), ("y", .str "2")])]
        ⟨[], 0, []⟩).ops
        = [.write "root/en" "common.json" (.obj [("x", .str "1")]),
           .write "root/de" "common.json" (.obj [("x", .str "1")])] ∧
      (syncLanguageM false true true ask oracle "en" "de" "root/en" "root/de"
        [("common.json", JValue.obj [("x", .str "1")])]
        [("common.json", JValue.obj [("x", .str "1"), ("y", .str "2")])]
        ⟨[], 0, []⟩).tst = ⟨[], 0, []⟩) := by
  refine ⟨fun p ask oracle bL lL keys b l tst ai =>
      pmk_auto_spec p ask oracle bL lL keys b l tst ai,
    fun p ask oracle bL lL keys b l tst ai =>
      pek_auto_spec p ask oracle bL lL keys b l tst ai,
    fun ask oracle => ?_⟩
  constructor <;>
    simp [syncLanguageM, processMissingFiles, processExtraFiles,
      processCommonFiles, processMissingKeys, processExtraKeys,
      processMismatches, decision, keysOf, readFs, mapGet, writeJSONM,
      diffKeys, flatten, flattenLoop, joinPath, mapSet, mapHas, mismatchAt,
      typeofStr, diffShape, deleteAtPath, delSegs, splitDot, splitChars,
      propDelete, getAtPath, getWalk, propGet, objLike, eraseKey]
